import Mathlib

/-!
# Verification of the mRNA strand geometry engine of gene-expression-basics

Shallow embedding of the messenger-RNA shape-segment / point-mass-chain
subsystem: `FlatSegment` (src/unnamed/part_001), `PointMass`
(src/unnamed/part_001, second document) and `MessengerRna`
(src/js/common/model/MessengerRna.js).

Modelling conventions:
* JavaScript `number` lengths and coordinates are modelled as exact
  rationals (`ℚ`); the code's epsilon comparisons are carried over
  verbatim against `ShapeSegment.FLOATING_POINT_COMP_FACTOR`.
* The mutable segment array is modelled as a `List ShapeSegment`.  For the
  operations that act on one segment and its list neighbours
  (`advance`, `advanceAndRemove`) the list is represented as a zipper
  `(rbefore, self, after)` where `rbefore` holds the segments preceding
  `self` in reverse order (head of `rbefore` = the `outputSegment`,
  head of `after` = the `inputSegment`), so the full list is
  `rbefore.reverse ++ [self] ++ after`.
* A JavaScript crash (`TypeError` on a `null` output segment, an invalid
  index, ...) is modelled by returning `none` from an `Option`-valued
  function.  A JavaScript function that *returns* `null` as a normal value
  is modelled by an `Option` result inside the `some` of the outer layer.
* `console.log` warnings are modelled as an explicit `Bool` in the result.
* Parts of the class hierarchy that are not under `src/` (the
  `ShapeSegment` base class, `SquareSegment`, the `WindingBiomolecule`
  list helpers, `GEEConstants`, the mRNA attachment state machine) are
  modelled from the spec; each such definition carries a doc comment
  saying so.  Position-only recomputations (`realignSegmentsFrom`,
  `windPointsThroughSegments`, `updateAttachmentSiteLocation`) move
  segments and points without changing any contained length, chain
  distance or bounds size, and no claim reads the quantities they
  update, so they are omitted (identity on the modelled state).
-/

namespace GeneExpression

/-- Modelled from the spec: the "floating-point comparison factor" of the
`ShapeSegment` base class (not under `src/`); a small positive epsilon used
for all length comparisons against zero. -/
def FLOATING_POINT_COMP_FACTOR : ℚ := 1 / 1000000

/-- Modelled from the spec: `GEEConstants.INTER_POINT_DISTANCE`, the rest
distance between consecutive shape-defining points (not under `src/`). -/
def INTER_POINT_DISTANCE : ℚ := 50

/-- `MessengerRna.LEADER_LENGTH = WindingBiomolecule.INTER_POINT_DISTANCE * 2`
(src/js/common/model/MessengerRna.js). -/
def LEADER_LENGTH : ℚ := INTER_POINT_DISTANCE * 2

/-- An axis-aligned bounding box, mirroring dot's `Bounds2` as used by the
segments (`minX`/`minY`/`maxX`/`maxY`, with `x = minX`, `y = minY`). -/
structure Bounds where
  minX : ℚ
  minY : ℚ
  maxX : ℚ
  maxY : ℚ
  deriving Repr, DecidableEq

namespace Bounds

/-- `bounds.setMinMax( minX, minY, maxX, maxY )`. -/
def setMinMax (minX minY maxX maxY : ℚ) : Bounds :=
  ⟨minX, minY, maxX, maxY⟩

/-- `bounds.getWidth()`. -/
def width (b : Bounds) : ℚ := b.maxX - b.minX

/-- Bounds height; zero for a flat segment. -/
def height (b : Bounds) : ℚ := b.maxY - b.minY

end Bounds

/-- The two shape-segment variants (spec §3: tagged-union reimplementation
of the Flat/Square inheritance). -/
inductive SegmentKind where
  | flat
  | square
  deriving Repr, DecidableEq

/-- A shape segment.  Fields shared by both variants come from the
`ShapeSegment` base class (not under `src/`, modelled from the spec):
`capacity` (default: unlimited, represented as `none`; `setCapacity`
installs a finite value), and the attachment site (a location plus the
molecule attached or attaching, or `none`).  `squareLength` is the stored
contained length of a square (wound) segment, whose bounds encode it
non-linearly via the winding algorithm; for flat segments the contained
length is the bounds width and `squareLength` is unused. -/
structure ShapeSegment where
  kind : SegmentKind
  bounds : Bounds
  squareLength : ℚ
  capacity : Option ℚ
  attachmentSiteX : ℚ
  attachmentSiteY : ℚ
  attachedOrAttachingMolecule : Option ℕ
  deriving Repr, DecidableEq

namespace ShapeSegment

/-- `getContainedLength()`: flat returns the bounds width
(src/unnamed/part_001 line 40); square returns its stored length
(modelled from the spec: `SquareSegment` is not under `src/`). -/
def containedLength (s : ShapeSegment) : ℚ :=
  match s.kind with
  | .flat => s.bounds.width
  | .square => s.squareLength

/-- Modelled from the spec: `ShapeSegment.getRemainingCapacity` of the base
class (not under `src/`): capacity minus contained length.  Only evaluated
on segments with a finite capacity; `0` is never reached by the callers. -/
def getRemainingCapacity (s : ShapeSegment) : ℚ :=
  match s.capacity with
  | some c => c - s.containedLength
  | none => 0

/-- Modelled from the spec: `setCapacity` of the base class. -/
def setCapacity (s : ShapeSegment) (c : ℚ) : ShapeSegment :=
  { s with capacity := some c }

/-- `getLowerRightCornerPos()` of the base class (modelled from the spec:
lower-right corner of the bounds). -/
def lowerRightCorner (s : ShapeSegment) : ℚ × ℚ := (s.bounds.maxX, s.bounds.minY)

/-- `getUpperLeftCornerPos()` of the base class (modelled from the spec:
upper-left corner of the bounds). -/
def upperLeftCorner (s : ShapeSegment) : ℚ × ℚ := (s.bounds.minX, s.bounds.maxY)

/-- The `FlatSegment( origin )` constructor: zero-size bounds at the
origin (src/unnamed/part_001 lines 24-28); base-class defaults for the
other fields (modelled from the spec: unlimited capacity, free attachment
site placed by `updateAttachmentSiteLocation`, whose position-only effect
is not modelled). -/
def mkFlatSegment (origin : ℚ × ℚ) : ShapeSegment :=
  { kind := .flat
    bounds := Bounds.setMinMax origin.1 origin.2 origin.1 origin.2
    squareLength := 0
    capacity := none
    attachmentSiteX := origin.1
    attachmentSiteY := origin.2
    attachedOrAttachingMolecule := none }

/-- Modelled from the spec: the `SquareSegment( origin )` constructor (not
under `src/`): a wound segment containing no length yet, base-class
defaults otherwise. -/
def mkSquareSegment (origin : ℚ × ℚ) : ShapeSegment :=
  { kind := .square
    bounds := Bounds.setMinMax origin.1 origin.2 origin.1 origin.2
    squareLength := 0
    capacity := none
    attachmentSiteX := origin.1
    attachmentSiteY := origin.2
    attachedOrAttachingMolecule := none }

/-- The bounds update of `FlatSegment.add` (src/unnamed/part_001 lines
66-70): grow the bounds linearly to the left by `growthAmount`. -/
def flatGrow (s : ShapeSegment) (growthAmount : ℚ) : ShapeSegment :=
  { s with bounds := Bounds.setMinMax (s.bounds.minX - growthAmount) s.bounds.minY (s.bounds.minX + s.bounds.width) s.bounds.minY }

/-- The bounds update of `FlatSegment.remove` (src/unnamed/part_001 line
81): shrink the bounds from the right by `length`. -/
def flatShrink (s : ShapeSegment) (length : ℚ) : ShapeSegment :=
  { s with bounds := Bounds.setMinMax s.bounds.minX s.bounds.minY (s.bounds.minX + s.bounds.width - length) s.bounds.minY }

/-- One segment's part of `add( length, … )`: the updated segment together
with the overflow segment created when the growth would exceed a finite
capacity (src/unnamed/part_001 lines 51-72 for flat; square modelled from
the spec: the wound bulk segment grows by the full length, the overflow
forwarding of the shared contract being vacuous at the base-class
unlimited capacity). -/
def addSeg (s : ShapeSegment) (length : ℚ) : ShapeSegment × Option ShapeSegment :=
  match s.kind with
  | .square => ({ s with squareLength := s.squareLength + length }, none)
  | .flat =>
    match s.capacity with
    | none => (flatGrow s length, none)
    | some cap =>
      if s.containedLength + length > cap then
        let growthAmount := cap - s.containedLength
        let newSquare := mkSquareSegment s.lowerRightCorner
        let newSquare := { newSquare with squareLength := newSquare.squareLength + (length - growthAmount) }
        (flatGrow s growthAmount, some newSquare)
      else
        (flatGrow s length, none)

/-- One segment's part of `remove( length, … )` (src/unnamed/part_001 lines
80-89 for flat; square modelled from the spec, shared contract): the shrunk
segment, and whether it stays in the list (it is spliced out when its
contained length drops below the comparison factor). -/
def removeSeg (s : ShapeSegment) (length : ℚ) : ShapeSegment × Bool :=
  let s' :=
    match s.kind with
    | .flat => flatShrink s length
    | .square => { s with squareLength := s.squareLength - length }
  (s', decide (¬ s'.containedLength < FLOATING_POINT_COMP_FACTOR))

/-- `maxOutLength()` (src/unnamed/part_001 lines 187-193): set the flat
segment's size to exactly its capacity without involving other segments.
Only called with a finite capacity; with the base-class unlimited default
it is never reached and leaves the segment unchanged. -/
def maxOutLength (s : ShapeSegment) : ShapeSegment :=
  match s.capacity with
  | none => s
  | some cap =>
    let growthAmount := s.getRemainingCapacity
    { s with bounds := Bounds.setMinMax (s.bounds.minX - growthAmount) s.bounds.minY (s.bounds.minX - growthAmount + cap) s.bounds.minY }

end ShapeSegment

open ShapeSegment

/-- Total contained length of a segment list. -/
def listSum (l : List ShapeSegment) : ℚ :=
  (l.map containedLength).sum

/-- `add( length, windingBiomolecule, shapeSegmentList )` acting on the
segment at index `i` of the list (src/unnamed/part_001 lines 51-72): the
segment grows, and any overflow segment is inserted immediately after it
(`windingBiomolecule.insertAfterShapeSegment`, modelled from the spec:
list insertion right after the given segment).  An invalid index leaves
the list unchanged. -/
def addAt (l : List ShapeSegment) (i : ℕ) (length : ℚ) : List ShapeSegment :=
  match l.get? i with
  | none => l
  | some s =>
    let (s', ins) := addSeg s length
    match ins with
    | none => l.set i s'
    | some sq => (l.set i s').insertIdx (i + 1) sq

/-- `remove( length, shapeSegmentList )` acting on the segment at index `i`
(src/unnamed/part_001 lines 80-89): the segment shrinks and is spliced out
of the list when its contained length drops below the comparison factor.
An invalid index leaves the list unchanged. -/
def removeAt (l : List ShapeSegment) (i : ℕ) (length : ℚ) : List ShapeSegment :=
  match l.get? i with
  | none => l
  | some s =>
    let (s', stays) := removeSeg s length
    if stays then l.set i s' else (l.set i s').eraseIdx i

/-- `outputSegment.add( amount, … )` in the zipper representation: the
output segment is the head of `rbefore` (the segment just before `self`);
an overflow segment created by the add is inserted between the output
segment and `self`, i.e. at the head of `rbefore`.  Returns `none` when
there is no output segment: the JavaScript code dereferences `null` and
crashes (`TypeError`). -/
def addToOutput (rbefore : List ShapeSegment) (amount : ℚ) :
    Option (List ShapeSegment) :=
  match rbefore with
  | [] => none
  | out :: rest =>
    let (out', ins) := addSeg out amount
    match ins with
    | none => some (out' :: rest)
    | some sq => some (sq :: out' :: rest)

/-- `inputSegment.remove( amount, … )` in the zipper representation: the
input segment is the head of `after`; it is spliced out of the list when
its contained length drops below the comparison factor.  The empty case is
never used (the callers branch on the input segment first). -/
def removeFromInput (after : List ShapeSegment) (amount : ℚ) :
    List ShapeSegment :=
  match after with
  | [] => []
  | inp :: rest =>
    let (inp', stays) := removeSeg inp amount
    if stays then inp' :: rest else rest

/-- Result of `advance`/`advanceAndRemove` on the zipper
`(rbefore, self, after)`: the new `rbefore`, the new `self` if it is still
in the list, the new `after`, and the final `self` object itself (whose
contained length `MessengerRna.advanceTranslation` inspects even after the
segment was spliced out of the list). -/
structure AdvanceResult where
  rbefore : List ShapeSegment
  selfInList : Option ShapeSegment
  after : List ShapeSegment
  selfObj : ShapeSegment
  deriving Repr, DecidableEq

/-- The full segment list reassembled from an advance result. -/
def AdvanceResult.toList (r : AdvanceResult) : List ShapeSegment :=
  r.rbefore.reverse ++ r.selfInList.toList ++ r.after

/-- Total contained length of the strand from `self` onwards (the side the
untranslated mRNA flows in from). -/
def AdvanceResult.suffixSum (r : AdvanceResult) : ℚ :=
  (r.selfInList.map containedLength).getD 0 + listSum r.after

/-- `FlatSegment.advance( length, windingBiomolecule, shapeSegmentList )`
(src/unnamed/part_001 lines 98-151) on the zipper `(rbefore, self, after)`
with `self` the acting flat segment, `outputSegment` the head of
`rbefore` and `inputSegment` the head of `after`.  `none` models the
JavaScript crash on a `null` output segment.  The production build skips
the `assert && assert( outputSegment === null )`, so the new-leader branch
is taken regardless of the assertion.  The position-only
`updateAttachmentSiteLocation` calls are omitted. -/
def advanceZ (length : ℚ) (rbefore : List ShapeSegment) (self : ShapeSegment)
    (after : List ShapeSegment) : Option AdvanceResult :=
  match after with
  | [] =>
    -- No input segment: the end of the strand is in this segment, so it
    -- shrinks and the removed length flows into the output segment.
    let lengthToAdvance := min length self.containedLength
    let (self', stays) := removeSeg self lengthToAdvance
    match addToOutput rbefore lengthToAdvance with
    | none => none
    | some rb' => some ⟨rb', if stays then some self' else none, [], self'⟩
  | input :: rest =>
    if input.containedLength > length then
      -- The input segment can supply the full length.
      match self.capacity with
      | none =>
        -- Unlimited capacity: `containedLength + length <= capacity` holds,
        -- so the segment just grows (the add cannot overflow).
        let (self', _) := addSeg self length
        some ⟨rbefore, some self', removeFromInput (input :: rest) length, self'⟩
      | some cap =>
        if self.containedLength + length ≤ cap then
          let (self', _) := addSeg self length
          some ⟨rbefore, some self', removeFromInput (input :: rest) length, self'⟩
        else
          -- Full or close to full: some or all of the length goes to the
          -- output segment.
          let remainingCapacity := self.getRemainingCapacity
          if remainingCapacity > FLOATING_POINT_COMP_FACTOR then
            -- Not quite full yet: fill it up and put a new leader segment
            -- at the front of the list to serve as the output segment.
            let self' := self.maxOutLength
            let newLeaderSegment := (mkFlatSegment self'.upperLeftCorner).setCapacity LEADER_LENGTH
            match addToOutput (newLeaderSegment :: rbefore) (length - remainingCapacity) with
            | none => none
            | some rb' =>
              some ⟨rb', some self', removeFromInput (input :: rest) length, self'⟩
          else
            match addToOutput rbefore (length - remainingCapacity) with
            | none => none
            | some rb' =>
              some ⟨rb', some self, removeFromInput (input :: rest) length, self⟩
    else
      -- The input segment is present but cannot supply the full length:
      -- drain it (removing it from the list), shrink this segment by the
      -- shortfall, and grow the output segment by the full length.
      let (self', stays) := removeSeg self (length - input.containedLength)
      let after' := removeFromInput (input :: rest) input.containedLength
      match addToOutput rbefore length with
      | none => none
      | some rb' => some ⟨rb', if stays then some self' else none, after', self'⟩

/-- `FlatSegment.advanceAndRemove( length, windingBiomolecule,
shapeSegmentList )` (src/unnamed/part_001 lines 160-181) on the zipper:
like `advance` but nothing is pushed to an output segment, so the strand
permanently loses length.  Never dereferences the output segment, hence
total. -/
def advanceAndRemoveZ (length : ℚ) (rbefore : List ShapeSegment)
    (self : ShapeSegment) (after : List ShapeSegment) : AdvanceResult :=
  match after with
  | [] =>
    let lengthToRemove := min length self.containedLength
    let (self', stays) := removeSeg self lengthToRemove
    ⟨rbefore, if stays then some self' else none, [], self'⟩
  | input :: rest =>
    if input.containedLength > length then
      ⟨rbefore, some self, removeFromInput (input :: rest) length, self⟩
    else
      let (self', stays) := removeSeg self (length - input.containedLength)
      let after' := removeFromInput (input :: rest) input.containedLength
      ⟨rbefore, if stays then some self' else none, after', self'⟩

/-! ## The shape-defining point chain

The `PointMass` chain (src/unnamed/part_001, second document) is modelled
by the list of `targetDistanceToPreviousPoint` values in chain order (head
= `firstShapeDefiningPoint`, whose distance to its non-existent
predecessor is `0` for a well-formed strand; last = `lastShapeDefiningPoint`).
Positions, velocities and accelerations play no role in any claim and are
omitted. -/

/-- Total of `targetDistanceToPreviousPoint` over the chain. -/
def chainSum (chain : List ℚ) : ℚ := chain.sum

/-- The point-removal loop of `MessengerRna.reduceLength`
(src/js/common/model/MessengerRna.js lines 215-229), expressed on the
reversed chain (head = `lastShapeDefiningPoint`): while the removed amount
is short of the reduction amount, drop the last point if its whole target
distance fits, otherwise shorten it by the remainder. -/
def trimRev : List ℚ → ℚ → List ℚ
  | l, amt =>
    if amt ≤ 0 then l
    else
      match l with
      | [] => []
      | d :: rest => if d ≤ amt then trimRev rest (amt - d) else (d - amt) :: rest
  termination_by l _ => l.length
  decreasing_by simp_wf

/-- Removing `amt` from the tail of the chain. -/
def trimChain (chain : List ℚ) (amt : ℚ) : List ℚ :=
  (trimRev chain.reverse amt).reverse

/-- Modelled from the spec: `WindingBiomolecule.getLength` (not under
`src/`): the total strand length, "the sum of `targetDistanceToPreviousPoint`
across the PointMass chain". -/
def getLength (chain : List ℚ) : ℚ := chainSum chain

/-- A strand as `reduceLength` sees it: the segment list as a zipper around
`segmentWhereDestroyerConnects`, plus the point chain. -/
structure ReduceState where
  rbefore : List ShapeSegment
  destroyerSeg : ShapeSegment
  after : List ShapeSegment
  chain : List ℚ
  deriving Repr, DecidableEq

/-- `MessengerRna.reduceLength( reductionAmount )`
(src/js/common/model/MessengerRna.js lines 201-231): if the amount covers
the whole strand, the chain collapses to the first point and the segment
list is cleared; otherwise the destroyer's segment advances-and-removes
the amount from the segment list and the same amount is trimmed from the
tail of the point chain. -/
def reduceLength (st : ReduceState) (reductionAmount : ℚ) :
    List ShapeSegment × List ℚ :=
  if reductionAmount ≥ getLength st.chain then
    ([], st.chain.take 1)
  else
    let r := advanceAndRemoveZ reductionAmount st.rbefore st.destroyerSeg st.after
    (r.toList, trimChain st.chain reductionAmount)

/-! ## MessengerRna (src/js/common/model/MessengerRna.js)

Molecule identity is a natural number; the map from ribosomes to their
shape segments stores the segment's current index in the list (segment
identity under the reference semantics of the source).  The attachment
state machine (`MessengerRnaAttachmentStateMachine`, not under `src/`) is
modelled from the spec by the states its notifications select. -/

/-- `RIBOSOME_CONNECTION_DISTANCE` (src/js/common/model/MessengerRna.js
line 27). -/
def RIBOSOME_CONNECTION_DISTANCE : ℚ := 400

/-- `MRNA_DESTROYER_CONNECT_DISTANCE` (src/js/common/model/MessengerRna.js
line 28). -/
def MRNA_DESTROYER_CONNECT_DISTANCE : ℚ := 400

/-- `a.distance( b ) < d` for points with rational coordinates, expressed
without the square root: both sides are non-negative, so the comparison of
the Euclidean distance against `d` equals the comparison of its square
against `d²`. -/
def distLt (a b : ℚ × ℚ) (d : ℚ) : Prop :=
  (a.1 - b.1) ^ 2 + (a.2 - b.2) ^ 2 < d ^ 2

instance (a b : ℚ × ℚ) (d : ℚ) : Decidable (distLt a b d) := by
  unfold distLt; infer_instance

/-- Modelled from the spec: the states of the mRNA's attachment state
machine that the `MessengerRna` notifications select (the machine itself is
not under `src/`): unattached-and-available, being translated (after
`attachedToRibosome`), being destroyed (after `attachToDestroyer`). -/
inductive AsmState where
  | unattachedAndAvailable
  | beingTranslated
  | beingDestroyed
  deriving Repr, DecidableEq

/-- The attachment site of the leading-edge segment, as returned to a
proposing molecule: a location plus the attached-or-attaching molecule. -/
structure AttachmentSite where
  x : ℚ
  y : ℚ
  attachedOrAttachingMolecule : Option ℕ
  deriving Repr, DecidableEq

/-- The site object owned by a segment. -/
def siteOf (s : ShapeSegment) : AttachmentSite :=
  ⟨s.attachmentSiteX, s.attachmentSiteY, s.attachedOrAttachingMolecule⟩

/-- The data of a `Ribosome` that `MessengerRna` reads: its identity, the
entrance position of its RNA channel, and its translation channel
length. -/
structure Ribosome where
  rid : ℕ
  entrancePos : ℚ × ℚ
  translationChannelLength : ℚ
  deriving Repr, DecidableEq

/-- The data of a `MessengerRnaDestroyer` that `MessengerRna` reads. -/
structure Destroyer where
  did : ℕ
  pos : ℚ × ℚ
  destructionChannelLength : ℚ
  deriving Repr, DecidableEq

/-- The `MessengerRna` state relevant to the claims: the segment list, the
point chain, the ribosome-to-segment map (ribosome id to segment index),
the destroyer reference and its connection segment, and the attachment
state machine state. -/
structure MRna where
  shapeSegments : List ShapeSegment
  chain : List ℚ
  mapRibosomeToShapeSegment : List (ℕ × ℕ)
  messengerRnaDestroyer : Option ℕ
  segmentWhereDestroyerConnects : Option ℕ
  asmState : AsmState
  deriving Repr, DecidableEq

namespace MRna

/-- Association-list lookup for the ribosome map. -/
def mapGet (m : MRna) (rid : ℕ) : Option ℕ :=
  (m.mapRibosomeToShapeSegment.find? (fun p => p.1 = rid)).map Prod.snd

/-- `considerProposalFromByRibosome( ribosome )`
(src/js/common/model/MessengerRna.js lines 381-407).  The outer `Option` is
the crash on an empty segment list (`shapeSegments.get( 0 )`); the inner
`Option AttachmentSite` is the returned site or `null`.  On acceptance the
state machine is notified (`attachedToRibosome`) and the ribosome is
entered in the map against segment 0. -/
def considerProposalFromByRibosome (m : MRna) (ribosome : Ribosome) :
    Option (Option AttachmentSite × MRna) :=
  match m.messengerRnaDestroyer with
  | some _ => some (none, m)
  | none =>
    match m.shapeSegments.head? with
    | none => none
    | some seg0 =>
      let site := siteOf seg0
      if site.attachedOrAttachingMolecule = none ∧
          distLt (site.x, site.y) ribosome.entrancePos RIBOSOME_CONNECTION_DISTANCE then
        some (some site,
          { m with asmState := AsmState.beingTranslated
                   mapRibosomeToShapeSegment := (ribosome.rid, 0) :: m.mapRibosomeToShapeSegment })
      else
        some (none, m)

/-- `considerProposalFromByMessengerRnaDestroyer( messengerRnaDestroyer )`
(src/js/common/model/MessengerRna.js lines 414-437).  On acceptance the
state machine is notified (`attachToDestroyer`) and the destroyer is
recorded. -/
def considerProposalFromByMessengerRnaDestroyer (m : MRna) (destroyer : Destroyer) :
    Option (Option AttachmentSite × MRna) :=
  match m.messengerRnaDestroyer with
  | some _ => some (none, m)
  | none =>
    match m.shapeSegments.head? with
    | none => none
    | some seg0 =>
      let site := siteOf seg0
      if site.attachedOrAttachingMolecule = none ∧
          distLt (site.x, site.y) destroyer.pos MRNA_DESTROYER_CONNECT_DISTANCE then
        some (some site,
          { m with asmState := AsmState.beingDestroyed
                   messengerRnaDestroyer := some destroyer.did })
      else
        some (none, m)

/-- `abortDestruction()` (src/js/common/model/MessengerRna.js lines
443-446): clear the destroyer reference and force the attachment state
machine to unattached-and-available. -/
def abortDestruction (m : MRna) : MRna :=
  { m with messengerRnaDestroyer := none
           asmState := AsmState.unattachedAndAvailable }

/-- `getRibosomeAttachmentLocation( ribosome )`
(src/js/common/model/MessengerRna.js lines 252-276).  Result: `(warned,
point)`, where `point = none` models the `return null` after the warning
for a non-attached ribosome.  The outer `Option` covers the mapped segment
no longer being in the list (the source would hand a detached object to
`getPreviousItem`, which is outside the modelled behaviour). -/
def getRibosomeAttachmentLocation (m : MRna) (ribosome : Ribosome) :
    Option (Bool × Option (ℚ × ℚ)) :=
  match m.mapGet ribosome.rid with
  | none => some (true, none)
  | some idx =>
    match m.shapeSegments.get? idx with
    | none => none
    | some segment =>
      if idx = 0 then
        -- No previous segment: the leader segment; the attachment point is
        -- the leader length from its rightmost edge.
        some (false, some (segment.lowerRightCorner.1 - LEADER_LENGTH, segment.lowerRightCorner.2))
      else
        -- The segment has filled up the channel: position from its left edge.
        some (false, some (segment.upperLeftCorner.1 + ribosome.translationChannelLength, segment.upperLeftCorner.2))

/-- `getDestroyerAttachmentLocation()` (src/js/common/model/MessengerRna.js
lines 460-471): the zero vector when no destroyer segment is connected,
else the rightmost side of that segment minus the leader length. -/
def getDestroyerAttachmentLocation (m : MRna) : Option (ℚ × ℚ) :=
  match m.segmentWhereDestroyerConnects with
  | none => some (0, 0)
  | some idx =>
    match m.shapeSegments.get? idx with
    | none => none
    | some segment =>
      some (segment.lowerRightCorner.1 - LEADER_LENGTH, segment.lowerRightCorner.2)

/-- `getProportionOfRnaTranslated( ribosome )`
(src/js/common/model/MessengerRna.js lines 353-374): the contained length
of every segment preceding the ribosome's segment (the `_.forEach` loop
breaks at that segment), plus the part of that segment past the channel
entrance (its contained length minus the distance from its lower-right
corner x to the attachment site x), divided by the total length, clamped
from below at zero.  `none` models the crash on a non-attached ribosome
(`undefined` lookup) or a detached segment. -/
def getProportionOfRnaTranslated (m : MRna) (ribosome : Ribosome) : Option ℚ :=
  match m.mapGet ribosome.rid with
  | none => none
  | some idx =>
    match m.shapeSegments.get? idx with
    | none => none
    | some segmentInRibosomeChannel =>
      let translatedLength := listSum (m.shapeSegments.take idx) +
        (segmentInRibosomeChannel.containedLength -
          (segmentInRibosomeChannel.lowerRightCorner.1 - segmentInRibosomeChannel.attachmentSiteX))
      some (max (translatedLength / getLength m.chain) 0)

/-- `advanceDestruction( length )` (src/js/common/model/MessengerRna.js
lines 166-192).  Result: `(warned, completed, newState)`.  With no
connected destroyer segment it warns and reports completion without
touching anything; otherwise it reduces the strand length and reports
completion when the first shape-defining point is the last one.  The
position-only realignment and rewinding are omitted; the outer `Option`
covers a recorded destroyer-segment index that is no longer in the list. -/
def advanceDestruction (m : MRna) (length : ℚ) : Option (Bool × Bool × MRna) :=
  match m.segmentWhereDestroyerConnects with
  | none => some (true, true, m)
  | some idx =>
    match m.shapeSegments.get? idx with
    | none => none
    | some seg =>
      let st : ReduceState :=
        ⟨(m.shapeSegments.take idx).reverse, seg, m.shapeSegments.drop (idx + 1), m.chain⟩
      let (segs', chain') := reduceLength st length
      let m' := { m with shapeSegments := segs', chain := chain' }
      some (false, decide (chain'.length = 1), m')

end MRna

/-! ## Repeated translation (for the termination claim)

`MessengerRna.advanceTranslation( ribosome, length )`
(src/js/common/model/MessengerRna.js lines 136-156) advances the segment
the ribosome is mapped to and reports completion when that segment's
contained length has reached zero.  The iteration below chains the zipper
through repeated calls with a fixed length: the ribosome's mapped segment
is the `self` of the zipper, looked up again each call.  When an advance
splices the segment out of the list while it still holds a positive
residual, the next call in the source operates on a detached segment and
crashes dereferencing its `null` output segment; this is modelled by
`none`. -/

/-- Iterate `advanceTranslation` up to `n` times: `some true` if some call
reported completion, `some false` if the fuel ran out first, `none` on a
crash. -/
def iterAdvanceTranslation (length : ℚ) : ℕ → List ShapeSegment → ShapeSegment →
    List ShapeSegment → Option Bool
  | 0, _, _, _ => some false
  | n + 1, rbefore, self, after =>
    match advanceZ length rbefore self after with
    | none => none
    | some r =>
      if r.selfObj.containedLength ≤ 0 then some true
      else
        match r.selfInList with
        | some self' => iterAdvanceTranslation length n r.rbefore self' r.after
        | none => none

/-- `x` is a natural multiple of the unit `δ`.  The termination theorem
uses a common positive unit above the comparison factor to rule out the
sub-epsilon residues at which the source's epsilon-splicing loses segments
that still hold length. -/
def IsMultOf (δ x : ℚ) : Prop := ∃ k : ℕ, x = k * δ

/-! ## Basic lemmas about the segment operations -/

namespace ShapeSegment

theorem kind_flatGrow (s : ShapeSegment) (g : ℚ) : (flatGrow s g).kind = s.kind := rfl

theorem kind_flatShrink (s : ShapeSegment) (g : ℚ) : (flatShrink s g).kind = s.kind := rfl

theorem containedLength_flatGrow (s : ShapeSegment) (g : ℚ) (h : s.kind = .flat) :
    (flatGrow s g).containedLength = s.containedLength + g := by
  simp [flatGrow, containedLength, h, Bounds.width, Bounds.setMinMax]
  ring

theorem containedLength_flatShrink (s : ShapeSegment) (g : ℚ) (h : s.kind = .flat) :
    (flatShrink s g).containedLength = s.containedLength - g := by
  simp [flatShrink, containedLength, h, Bounds.width, Bounds.setMinMax]
  ring

theorem addSeg_square (s : ShapeSegment) (len : ℚ) (h : s.kind = .square) :
    addSeg s len = ({ s with squareLength := s.squareLength + len }, none) := by
  simp [addSeg, h]

theorem addSeg_nocap (s : ShapeSegment) (len : ℚ) (hk : s.kind = .flat)
    (hc : s.capacity = none) : addSeg s len = (flatGrow s len, none) := by
  simp [addSeg, hk, hc]

theorem addSeg_of_le (s : ShapeSegment) (len : ℚ) (cap : ℚ) (hk : s.kind = .flat)
    (hc : s.capacity = some cap) (hle : s.containedLength + len ≤ cap) :
    addSeg s len = (flatGrow s len, none) := by
  simp only [addSeg, hk, hc]
  rw [if_neg (by linarith)]

theorem addSeg_of_gt (s : ShapeSegment) (len : ℚ) (cap : ℚ) (hk : s.kind = .flat)
    (hc : s.capacity = some cap) (hgt : cap < s.containedLength + len) :
    addSeg s len = (flatGrow s (cap - s.containedLength),
      some { mkSquareSegment s.lowerRightCorner with
               squareLength := (mkSquareSegment s.lowerRightCorner).squareLength + (len - (cap - s.containedLength)) }) := by
  simp [addSeg, hk, hc, hgt]

theorem kind_addSeg_fst (s : ShapeSegment) (len : ℚ) : (addSeg s len).1.kind = s.kind := by
  rcases h : s.kind with _ | _
  · rcases hc : s.capacity with _ | cap
    · simp [addSeg_nocap s len h hc, kind_flatGrow, h]
    · by_cases hover : cap < s.containedLength + len
      · simp [addSeg_of_gt s len cap h hc hover, kind_flatGrow, h]
      · simp [addSeg_of_le s len cap h hc (by linarith), kind_flatGrow, h]
  · simp [addSeg_square s len h, h]

/-- Growing a segment distributes the full requested length between the
segment itself and the overflow segment, exactly. -/
theorem addSeg_total (s : ShapeSegment) (len : ℚ) :
    (addSeg s len).1.containedLength + ((addSeg s len).2.map containedLength).getD 0 =
      s.containedLength + len := by
  rcases h : s.kind with _ | _
  · rcases hc : s.capacity with _ | cap
    · simp [addSeg_nocap s len h hc, containedLength_flatGrow _ _ h]
    · by_cases hover : cap < s.containedLength + len
      · rw [addSeg_of_gt s len cap h hc hover]
        have hsq : containedLength { mkSquareSegment s.lowerRightCorner with
            squareLength := (mkSquareSegment s.lowerRightCorner).squareLength + (len - (cap - s.containedLength)) } =
            len - (cap - s.containedLength) := by
          simp [containedLength, mkSquareSegment]
        simp only [Option.map_some', Option.getD_some, hsq, containedLength_flatGrow _ _ h]
        ring
      · simp [addSeg_of_le s len cap h hc (by linarith), containedLength_flatGrow _ _ h]
  · simp [addSeg_square s len h, containedLength, h]

theorem containedLength_removeSeg_fst (s : ShapeSegment) (len : ℚ) :
    (removeSeg s len).1.containedLength = s.containedLength - len := by
  rcases hk : s.kind with _ | _
  · simp [removeSeg, hk, containedLength_flatShrink _ _ hk]
  · simp [removeSeg, hk, containedLength]

theorem kind_removeSeg_fst (s : ShapeSegment) (len : ℚ) : (removeSeg s len).1.kind = s.kind := by
  rcases hk : s.kind with _ | _ <;> simp [removeSeg, hk, kind_flatShrink]

theorem removeSeg_snd (s : ShapeSegment) (len : ℚ) :
    (removeSeg s len).2 = decide (¬ (removeSeg s len).1.containedLength < FLOATING_POINT_COMP_FACTOR) := by
  rcases hk : s.kind with _ | _ <;> simp [removeSeg, hk]

end ShapeSegment

/-- Setting index `i` and then inserting right behind it, as take/cons/drop
surgery. -/
theorem set_insertIdx_decomp {α : Type} (l : List α) (i : ℕ) (a b : α)
    (h : i < l.length) :
    (l.set i a).insertIdx (i + 1) b = l.take i ++ a :: b :: l.drop (i + 1) := by
  induction l generalizing i with
  | nil => simp at h
  | cons x xs ih =>
    cases i with
    | zero => simp [List.insertIdx_succ_cons]
    | succ n =>
      simp only [List.set_cons_succ, List.insertIdx_succ_cons, List.take_succ_cons,
        List.drop_succ_cons, List.cons_append, List.cons.injEq, true_and]
      exact ih n (by simpa using h)

/-- C3 overflow splitting, the two branches of `FlatSegment.add`. -/
theorem addAt_split (l : List ShapeSegment) (i : ℕ) (s : ShapeSegment)
    (C len : ℚ) (hget : l.get? i = some s) (hk : s.kind = .flat)
    (hcap : s.capacity = some C) :
    (len > C - s.containedLength →
      ∃ s' sq, addAt l i len = l.take i ++ s' :: sq :: l.drop (i + 1) ∧
        s'.containedLength = C ∧ s'.kind = .flat ∧ sq.kind = .square ∧
        sq.containedLength = len - (C - s.containedLength)) ∧
    (len ≤ C - s.containedLength →
      ∃ s', addAt l i len = l.take i ++ s' :: l.drop (i + 1) ∧
        s'.containedLength = s.containedLength + len ∧ s'.kind = .flat) := by
  have hlen : i < l.length := List.get?_eq_some.mp hget |>.1
  have hset : ∀ a : ShapeSegment, l.set i a = l.take i ++ a :: l.drop (i + 1) :=
    fun a => List.set_eq_take_cons_drop a hlen
  constructor
  · intro hover
    refine ⟨flatGrow s (C - s.containedLength),
      { mkSquareSegment s.lowerRightCorner with
          squareLength := (mkSquareSegment s.lowerRightCorner).squareLength + (len - (C - s.containedLength)) }, ?_, ?_, ?_, ?_, ?_⟩
    · unfold addAt
      rw [hget]
      simp only
      unfold addSeg
      rw [hk, hcap]
      simp only
      rw [if_pos (by linarith)]
      simp only
      exact set_insertIdx_decomp l i _ _ hlen
    · rw [containedLength_flatGrow _ _ hk]; ring
    · exact hk
    · rfl
    · simp [containedLength, mkSquareSegment]
  · intro hle
    refine ⟨flatGrow s len, ?_, ?_, hk⟩
    · unfold addAt
      rw [hget]
      simp only
      unfold addSeg
      rw [hk, hcap]
      simp only
      rw [if_neg (by linarith)]
      simp only
      exact hset _
    · exact containedLength_flatGrow _ _ hk

/-! ## Flat segments stay flat -/

/-- A segment is geometrically flat: if it is of the flat variant, its
bounds have zero height. -/
def flatHeightZero (s : ShapeSegment) : Prop :=
  s.kind = .flat → s.bounds.height = 0

/-- All flat segments of a list have zero-height bounds. -/
def FlatZero (l : List ShapeSegment) : Prop :=
  ∀ s ∈ l, flatHeightZero s

namespace ShapeSegment

theorem height_flatGrow (s : ShapeSegment) (g : ℚ) : (flatGrow s g).bounds.height = 0 := by
  simp [flatGrow, Bounds.height, Bounds.setMinMax]

theorem height_flatShrink (s : ShapeSegment) (g : ℚ) : (flatShrink s g).bounds.height = 0 := by
  simp [flatShrink, Bounds.height, Bounds.setMinMax]

theorem height_mkFlatSegment (o : ℚ × ℚ) : (mkFlatSegment o).bounds.height = 0 := by
  simp [mkFlatSegment, Bounds.height, Bounds.setMinMax]

theorem flatHeightZero_addSeg_fst (s : ShapeSegment) (len : ℚ) :
    flatHeightZero (addSeg s len).1 := by
  intro hk
  rw [kind_addSeg_fst] at hk
  rcases hc : s.capacity with _ | cap
  · rw [addSeg_nocap s len hk hc]
    exact height_flatGrow s len
  · by_cases hover : cap < s.containedLength + len
    · rw [addSeg_of_gt s len cap hk hc hover]
      exact height_flatGrow _ _
    · rw [addSeg_of_le s len cap hk hc (by linarith)]
      exact height_flatGrow s len

theorem flatHeightZero_addSeg_snd (s : ShapeSegment) (len : ℚ) (sq : ShapeSegment)
    (h : (addSeg s len).2 = some sq) : flatHeightZero sq := by
  intro hk
  exfalso
  rcases hks : s.kind with _ | _
  · rcases hc : s.capacity with _ | cap
    · rw [addSeg_nocap s len hks hc] at h
      cases h
    · by_cases hover : cap < s.containedLength + len
      · rw [addSeg_of_gt s len cap hks hc hover] at h
        cases h
        simp [mkSquareSegment] at hk
      · rw [addSeg_of_le s len cap hks hc (by linarith)] at h
        cases h
  · rw [addSeg_square s len hks] at h
    cases h

theorem flatHeightZero_removeSeg_fst (s : ShapeSegment) (len : ℚ) :
    flatHeightZero (removeSeg s len).1 := by
  intro hk
  rw [kind_removeSeg_fst] at hk
  simp only [removeSeg, hk]
  exact height_flatShrink s len

theorem flatHeightZero_maxOutLength (s : ShapeSegment) (h : flatHeightZero s) :
    flatHeightZero s.maxOutLength := by
  intro hk
  rcases hc : s.capacity with _ | cap
  · simpa [maxOutLength, hc] using h (by simpa [maxOutLength, hc] using hk)
  · simp [maxOutLength, hc, Bounds.height, Bounds.setMinMax]

theorem flatHeightZero_setCapacity (s : ShapeSegment) (c : ℚ) (h : flatHeightZero s) :
    flatHeightZero (s.setCapacity c) := h

end ShapeSegment

theorem FlatZero.set (l : List ShapeSegment) (i : ℕ) (a : ShapeSegment)
    (hl : FlatZero l) (ha : flatHeightZero a) : FlatZero (l.set i a) := by
  intro s hs
  rcases List.mem_or_eq_of_mem_set hs with h | h
  · exact hl s h
  · exact h ▸ ha

theorem mem_insertIdx_elim {α : Type} {s a : α} {l : List α} {i : ℕ}
    (hs : s ∈ l.insertIdx i a) : s = a ∨ s ∈ l := by
  induction l generalizing i with
  | nil =>
    cases i with
    | zero => simpa using hs
    | succ n => simp [List.insertIdx] at hs
  | cons x xs ih =>
    cases i with
    | zero =>
      rcases (by simpa using hs : s = a ∨ s = x ∨ s ∈ xs) with h | h | h
      · exact Or.inl h
      · exact Or.inr (h ▸ List.mem_cons_self x xs)
      · exact Or.inr (List.mem_cons_of_mem x h)
    | succ n =>
      rcases List.mem_cons.mp (by simpa [List.insertIdx_succ_cons] using hs) with h | h
      · exact Or.inr (h ▸ List.mem_cons_self x xs)
      · rcases ih h with h' | h'
        · exact Or.inl h'
        · exact Or.inr (List.mem_cons_of_mem x h')

theorem FlatZero.insertIdx (l : List ShapeSegment) (i : ℕ) (a : ShapeSegment)
    (hl : FlatZero l) (ha : flatHeightZero a) : FlatZero (l.insertIdx i a) := by
  intro s hs
  rcases mem_insertIdx_elim hs with h | h
  · exact h ▸ ha
  · exact hl s h

theorem FlatZero_addAt (l : List ShapeSegment) (i : ℕ) (len : ℚ) (hl : FlatZero l) :
    FlatZero (addAt l i len) := by
  unfold addAt
  rcases hget : l.get? i with _ | s
  · exact hl
  · simp only
    rcases hins : (addSeg s len).2 with _ | sq
    · simpa [hins] using FlatZero.set l i _ hl (flatHeightZero_addSeg_fst s len)
    · simp only [hins]
      exact FlatZero.insertIdx _ _ _
        (FlatZero.set l i _ hl (flatHeightZero_addSeg_fst s len))
        (flatHeightZero_addSeg_snd s len sq hins)

theorem FlatZero_removeAt (l : List ShapeSegment) (i : ℕ) (len : ℚ) (hl : FlatZero l) :
    FlatZero (removeAt l i len) := by
  unfold removeAt
  rcases hget : l.get? i with _ | s
  · exact hl
  · simp only
    have hset := FlatZero.set l i (removeSeg s len).1 hl (flatHeightZero_removeSeg_fst s len)
    split
    · exact hset
    · intro x hx
      exact hset x (List.mem_of_mem_eraseIdx hx)

theorem FlatZero_addToOutput (rb : List ShapeSegment) (amt : ℚ) (rb' : List ShapeSegment)
    (hrb : FlatZero rb) (h : addToOutput rb amt = some rb') : FlatZero rb' := by
  unfold addToOutput at h
  rcases rb with _ | ⟨out, rest⟩
  · cases h
  · simp only at h
    rcases hins : (addSeg out amt).2 with _ | sq <;> rw [hins] at h <;> cases h
    · intro s hs
      rcases List.mem_cons.mp hs with h | h
      · exact h ▸ flatHeightZero_addSeg_fst out amt
      · exact hrb s (List.mem_cons_of_mem _ h)
    · intro s hs
      rcases List.mem_cons.mp hs with h | h
      · exact h ▸ flatHeightZero_addSeg_snd out amt sq hins
      · rcases List.mem_cons.mp h with h' | h'
        · exact h' ▸ flatHeightZero_addSeg_fst out amt
        · exact hrb s (List.mem_cons_of_mem _ h')

theorem FlatZero_removeFromInput (after : List ShapeSegment) (amt : ℚ)
    (hafter : FlatZero after) : FlatZero (removeFromInput after amt) := by
  unfold removeFromInput
  rcases after with _ | ⟨inp, rest⟩
  · exact hafter
  · simp only
    split
    · intro s hs
      rcases List.mem_cons.mp hs with h | h
      · exact h ▸ flatHeightZero_removeSeg_fst inp amt
      · exact hafter s (List.mem_cons_of_mem _ h)
    · intro s hs
      exact hafter s (List.mem_cons_of_mem _ hs)

/-! ## Branch equations for advance and advanceAndRemove -/

theorem advanceZ_no_input (len : ℚ) (rb : List ShapeSegment) (self : ShapeSegment) :
    advanceZ len rb self [] =
      (addToOutput rb (min len self.containedLength)).map (fun rb' =>
        ⟨rb',
          if (removeSeg self (min len self.containedLength)).2
          then some (removeSeg self (min len self.containedLength)).1 else none,
          [], (removeSeg self (min len self.containedLength)).1⟩) := by
  unfold advanceZ
  cases hrm : removeSeg self (min len self.containedLength) with
  | mk s' stays =>
    simp only [hrm]
    rcases addToOutput rb (min len self.containedLength) with _ | rb' <;> simp

theorem advanceZ_pull_nocap (len : ℚ) (rb : List ShapeSegment) (self input : ShapeSegment)
    (rest : List ShapeSegment) (hin : input.containedLength > len)
    (hc : self.capacity = none) :
    advanceZ len rb self (input :: rest) =
      some ⟨rb, some (addSeg self len).1, removeFromInput (input :: rest) len,
        (addSeg self len).1⟩ := by
  unfold advanceZ
  simp only [hc, if_pos hin]

theorem advanceZ_pull_fits (len : ℚ) (rb : List ShapeSegment) (self input : ShapeSegment)
    (rest : List ShapeSegment) (cap : ℚ) (hin : input.containedLength > len)
    (hc : self.capacity = some cap) (hle : self.containedLength + len ≤ cap) :
    advanceZ len rb self (input :: rest) =
      some ⟨rb, some (addSeg self len).1, removeFromInput (input :: rest) len,
        (addSeg self len).1⟩ := by
  unfold advanceZ
  simp only [hc, if_pos hin, if_pos hle]

theorem advanceZ_pull_fillup (len : ℚ) (rb : List ShapeSegment) (self input : ShapeSegment)
    (rest : List ShapeSegment) (cap : ℚ) (hin : input.containedLength > len)
    (hc : self.capacity = some cap) (hgt : ¬ self.containedLength + len ≤ cap)
    (hroom : self.getRemainingCapacity > FLOATING_POINT_COMP_FACTOR) :
    advanceZ len rb self (input :: rest) =
      (addToOutput ((mkFlatSegment self.maxOutLength.upperLeftCorner).setCapacity LEADER_LENGTH :: rb)
          (len - self.getRemainingCapacity)).map (fun rb' =>
        ⟨rb', some self.maxOutLength, removeFromInput (input :: rest) len, self.maxOutLength⟩) := by
  unfold advanceZ
  simp only [hc, if_pos hin, if_neg hgt, if_pos hroom]
  rcases addToOutput ((mkFlatSegment self.maxOutLength.upperLeftCorner).setCapacity LEADER_LENGTH :: rb)
      (len - self.getRemainingCapacity) with _ | rb' <;> simp

theorem advanceZ_pull_full (len : ℚ) (rb : List ShapeSegment) (self input : ShapeSegment)
    (rest : List ShapeSegment) (cap : ℚ) (hin : input.containedLength > len)
    (hc : self.capacity = some cap) (hgt : ¬ self.containedLength + len ≤ cap)
    (hroom : ¬ self.getRemainingCapacity > FLOATING_POINT_COMP_FACTOR) :
    advanceZ len rb self (input :: rest) =
      (addToOutput rb (len - self.getRemainingCapacity)).map (fun rb' =>
        ⟨rb', some self, removeFromInput (input :: rest) len, self⟩) := by
  unfold advanceZ
  simp only [hc, if_pos hin, if_neg hgt, if_neg hroom]
  rcases addToOutput rb (len - self.getRemainingCapacity) with _ | rb' <;> simp

theorem advanceZ_drain (len : ℚ) (rb : List ShapeSegment) (self input : ShapeSegment)
    (rest : List ShapeSegment) (hin : ¬ input.containedLength > len) :
    advanceZ len rb self (input :: rest) =
      (addToOutput rb len).map (fun rb' =>
        ⟨rb',
          if (removeSeg self (len - input.containedLength)).2
          then some (removeSeg self (len - input.containedLength)).1 else none,
          removeFromInput (input :: rest) input.containedLength,
          (removeSeg self (len - input.containedLength)).1⟩) := by
  unfold advanceZ
  simp only [if_neg hin]
  cases hrm : removeSeg self (len - input.containedLength) with
  | mk s' stays =>
    simp only
    rcases addToOutput rb len with _ | rb' <;> simp

theorem advanceAndRemoveZ_no_input (len : ℚ) (rb : List ShapeSegment) (self : ShapeSegment) :
    advanceAndRemoveZ len rb self [] =
      ⟨rb,
        if (removeSeg self (min len self.containedLength)).2
        then some (removeSeg self (min len self.containedLength)).1 else none,
        [], (removeSeg self (min len self.containedLength)).1⟩ := by
  unfold advanceAndRemoveZ
  cases hrm : removeSeg self (min len self.containedLength) with
  | mk s' stays => simp [hrm]

theorem advanceAndRemoveZ_pull (len : ℚ) (rb : List ShapeSegment) (self input : ShapeSegment)
    (rest : List ShapeSegment) (hin : input.containedLength > len) :
    advanceAndRemoveZ len rb self (input :: rest) =
      ⟨rb, some self, removeFromInput (input :: rest) len, self⟩ := by
  unfold advanceAndRemoveZ
  simp [if_pos hin]

theorem advanceAndRemoveZ_drain (len : ℚ) (rb : List ShapeSegment) (self input : ShapeSegment)
    (rest : List ShapeSegment) (hin : ¬ input.containedLength > len) :
    advanceAndRemoveZ len rb self (input :: rest) =
      ⟨rb,
        if (removeSeg self (len - input.containedLength)).2
        then some (removeSeg self (len - input.containedLength)).1 else none,
        removeFromInput (input :: rest) input.containedLength,
        (removeSeg self (len - input.containedLength)).1⟩ := by
  unfold advanceAndRemoveZ
  simp only [if_neg hin]

theorem FlatZero_parts (r : AdvanceResult) (h1 : FlatZero r.rbefore)
    (h2 : FlatZero r.after) (h3 : ∀ s, r.selfInList = some s → flatHeightZero s) :
    FlatZero r.toList := by
  intro s hs
  unfold AdvanceResult.toList at hs
  rcases List.mem_append.mp hs with hs' | hs'
  · rcases List.mem_append.mp hs' with h | h
    · exact h1 s (List.mem_reverse.mp h)
    · rcases hsl : r.selfInList with _ | sf <;> rw [hsl] at h
      · simp at h
      · simp only [Option.toList_some, List.mem_singleton] at h
        exact h ▸ h3 sf hsl
  · exact h2 s hs'

theorem FlatZero_advanceZ (len : ℚ) (rb : List ShapeSegment) (self : ShapeSegment)
    (after : List ShapeSegment) (r : AdvanceResult) (hrb : FlatZero rb)
    (hafter : FlatZero after) (hself : flatHeightZero self)
    (h : advanceZ len rb self after = some r) :
    FlatZero r.rbefore ∧ FlatZero r.after ∧ flatHeightZero r.selfObj ∧
      (∀ s, r.selfInList = some s → flatHeightZero s) := by
  rcases after with _ | ⟨input, rest⟩
  · rw [advanceZ_no_input] at h
    rcases ho : addToOutput rb (min len self.containedLength) with _ | rb' <;>
      rw [ho] at h
    · cases h
    · simp only [Option.map_some', Option.some_inj] at h
      subst h
      refine ⟨FlatZero_addToOutput _ _ _ hrb ho, ?_, ?_, ?_⟩
      · intro s hs
        simp at hs
      · exact flatHeightZero_removeSeg_fst self _
      · intro s hs
        simp only at hs
        split at hs
        · cases hs
          exact flatHeightZero_removeSeg_fst self _
        · cases hs
  · have hafter' : FlatZero rest := fun s hs => hafter s (List.mem_cons_of_mem _ hs)
    by_cases hin : input.containedLength > len
    · rcases hc : self.capacity with _ | cap
      · rw [advanceZ_pull_nocap len rb self input rest hin hc] at h
        cases h
        exact ⟨hrb, FlatZero_removeFromInput _ _ hafter,
          flatHeightZero_addSeg_fst self len,
          fun s hs => by cases hs; exact flatHeightZero_addSeg_fst self len⟩
      · by_cases hle : self.containedLength + len ≤ cap
        · rw [advanceZ_pull_fits len rb self input rest cap hin hc hle] at h
          cases h
          exact ⟨hrb, FlatZero_removeFromInput _ _ hafter,
            flatHeightZero_addSeg_fst self len,
            fun s hs => by cases hs; exact flatHeightZero_addSeg_fst self len⟩
        · by_cases hroom : self.getRemainingCapacity > FLOATING_POINT_COMP_FACTOR
          · rw [advanceZ_pull_fillup len rb self input rest cap hin hc hle hroom] at h
            rcases ho : addToOutput
                ((mkFlatSegment self.maxOutLength.upperLeftCorner).setCapacity LEADER_LENGTH :: rb)
                (len - self.getRemainingCapacity) with _ | rb' <;> rw [ho] at h
            · cases h
            · simp only [Option.map_some', Option.some_inj] at h
              subst h
              have hleader : flatHeightZero
                  ((mkFlatSegment self.maxOutLength.upperLeftCorner).setCapacity LEADER_LENGTH) :=
                flatHeightZero_setCapacity _ _ (fun _ => height_mkFlatSegment _)
              have hcons : FlatZero
                  ((mkFlatSegment self.maxOutLength.upperLeftCorner).setCapacity LEADER_LENGTH :: rb) := by
                intro s hs
                rcases List.mem_cons.mp hs with h' | h'
                · exact h' ▸ hleader
                · exact hrb s h'
              exact ⟨FlatZero_addToOutput _ _ _ hcons ho,
                FlatZero_removeFromInput _ _ hafter,
                flatHeightZero_maxOutLength self hself,
                fun s hs => by cases hs; exact flatHeightZero_maxOutLength self hself⟩
          · rw [advanceZ_pull_full len rb self input rest cap hin hc hle hroom] at h
            rcases ho : addToOutput rb (len - self.getRemainingCapacity) with _ | rb' <;>
              rw [ho] at h
            · cases h
            · simp only [Option.map_some', Option.some_inj] at h
              subst h
              exact ⟨FlatZero_addToOutput _ _ _ hrb ho,
                FlatZero_removeFromInput _ _ hafter, hself,
                fun s hs => by cases hs; exact hself⟩
    · rw [advanceZ_drain len rb self input rest hin] at h
      rcases ho : addToOutput rb len with _ | rb' <;> rw [ho] at h
      · cases h
      · simp only [Option.map_some', Option.some_inj] at h
        subst h
        refine ⟨FlatZero_addToOutput _ _ _ hrb ho,
          FlatZero_removeFromInput _ _ hafter,
          flatHeightZero_removeSeg_fst self _, ?_⟩
        intro s hs
        simp only at hs
        split at hs
        · cases hs
          exact flatHeightZero_removeSeg_fst self _
        · cases hs

theorem FlatZero_advanceAndRemoveZ (len : ℚ) (rb : List ShapeSegment)
    (self : ShapeSegment) (after : List ShapeSegment) (hrb : FlatZero rb)
    (hafter : FlatZero after) (hself : flatHeightZero self) :
    FlatZero (advanceAndRemoveZ len rb self after).rbefore ∧
      FlatZero (advanceAndRemoveZ len rb self after).after ∧
      flatHeightZero (advanceAndRemoveZ len rb self after).selfObj ∧
      (∀ s, (advanceAndRemoveZ len rb self after).selfInList = some s → flatHeightZero s) := by
  rcases after with _ | ⟨input, rest⟩
  · rw [advanceAndRemoveZ_no_input]
    refine ⟨hrb, ?_, flatHeightZero_removeSeg_fst self _, ?_⟩
    · intro s hs
      simp at hs
    · intro s hs
      simp only at hs
      split at hs
      · cases hs
        exact flatHeightZero_removeSeg_fst self _
      · cases hs
  · have hafter' : FlatZero rest := fun s hs => hafter s (List.mem_cons_of_mem _ hs)
    by_cases hin : input.containedLength > len
    · rw [advanceAndRemoveZ_pull len rb self input rest hin]
      exact ⟨hrb, FlatZero_removeFromInput _ _ hafter, hself,
        fun s hs => by cases hs; exact hself⟩
    · rw [advanceAndRemoveZ_drain len rb self input rest hin]
      refine ⟨hrb, FlatZero_removeFromInput _ _ hafter,
        flatHeightZero_removeSeg_fst self _, ?_⟩
      intro s hs
      simp only at hs
      split at hs
      · cases hs
        exact flatHeightZero_removeSeg_fst self _
      · cases hs

theorem ShapeSegment.kind_maxOutLength (s : ShapeSegment) : s.maxOutLength.kind = s.kind := by
  unfold ShapeSegment.maxOutLength
  rcases s.capacity with _ | cap <;> rfl

/-! ## Sample data for witnesses and counterexamples -/

/-- A fresh leader-style flat segment with capacity 200 and contained
length 0. -/
def sampleFlat : ShapeSegment := (mkFlatSegment (0, 0)).setCapacity 200

/-- A flat segment holding 100 units against a capacity of 200. -/
def sampleFlat100 : ShapeSegment :=
  { (mkFlatSegment (0, 0)).setCapacity 200 with bounds := Bounds.setMinMax (-100) 0 0 0 }

/-- A square (wound) segment holding `q` units. -/
def sampleSquare (q : ℚ) : ShapeSegment :=
  { mkSquareSegment (0, 0) with squareLength := q }

/-! ## Claim theorems -/

/-- C3: Overflow splitting: for every flat segment with capacity `C` and
remaining room `r = C - containedLength`, `add(length)` with `length > r`
leaves the segment's contained length exactly `C` and inserts a newly
created square segment immediately after it in the segment list whose
contained length is exactly `length - r`; when `length ≤ r` the segment
simply grows by `length` and no new segment is created. -/
theorem claim_C3_overflow_splitting (l : List ShapeSegment) (i : ℕ) (s : ShapeSegment)
    (C len : ℚ) (hget : l.get? i = some s) (hk : s.kind = .flat)
    (hcap : s.capacity = some C) :
    (len > C - s.containedLength →
      ∃ s' sq, addAt l i len = l.take i ++ s' :: sq :: l.drop (i + 1) ∧
        s'.containedLength = C ∧ s'.kind = .flat ∧ sq.kind = .square ∧
        sq.containedLength = len - (C - s.containedLength)) ∧
    (len ≤ C - s.containedLength →
      ∃ s', addAt l i len = l.take i ++ s' :: l.drop (i + 1) ∧
        s'.containedLength = s.containedLength + len ∧ s'.kind = .flat) :=
  addAt_split l i s C len hget hk hcap

/-- Witness for C3 at a concrete input: a fresh capacity-200 flat segment
receiving 250 units splits into a full segment and a square segment
holding 50. -/
theorem claim_C3_overflow_splitting_witness :
    (∃ s' sq, addAt [sampleFlat] 0 250 =
        [sampleFlat].take 0 ++ s' :: sq :: [sampleFlat].drop (0 + 1) ∧
        s'.containedLength = 200 ∧ s'.kind = .flat ∧ sq.kind = .square ∧
        sq.containedLength = 250 - (200 - sampleFlat.containedLength)) ∧
    (∃ s', addAt [sampleFlat] 0 150 =
        [sampleFlat].take 0 ++ s' :: [sampleFlat].drop (0 + 1) ∧
        s'.containedLength = sampleFlat.containedLength + 150 ∧ s'.kind = .flat) :=
  ⟨(claim_C3_overflow_splitting [sampleFlat] 0 sampleFlat 200 250 rfl rfl rfl).1
      (by norm_num [sampleFlat, mkFlatSegment, ShapeSegment.setCapacity, containedLength, Bounds.width, Bounds.setMinMax]),
   (claim_C3_overflow_splitting [sampleFlat] 0 sampleFlat 200 150 rfl rfl rfl).2
      (by norm_num [sampleFlat, mkFlatSegment, ShapeSegment.setCapacity, containedLength, Bounds.width, Bounds.setMinMax])⟩

/-- C10: Flat segments stay flat: a flat segment's bounds height is zero
at construction and every flat segment in the list still has zero-height
bounds after every `add`, `remove`, `advance`, `advanceAndRemove` and
`maxOutLength` operation (every bounds update keeps `minY = maxY`), and a
flat segment's contained length always equals its bounds width. -/
theorem claim_C10_flat_segments_stay_flat :
    (∀ o : ℚ × ℚ, (mkFlatSegment o).bounds.height = 0) ∧
    (∀ l i len, FlatZero l → FlatZero (addAt l i len)) ∧
    (∀ l i len, FlatZero l → FlatZero (removeAt l i len)) ∧
    (∀ len rb self after r, FlatZero rb → FlatZero after → flatHeightZero self →
      advanceZ len rb self after = some r →
      FlatZero r.toList ∧ flatHeightZero r.selfObj) ∧
    (∀ len rb self after, FlatZero rb → FlatZero after → flatHeightZero self →
      FlatZero (advanceAndRemoveZ len rb self after).toList ∧
      flatHeightZero (advanceAndRemoveZ len rb self after).selfObj) ∧
    (∀ s : ShapeSegment, s.kind = .flat → s.bounds.height = 0 →
      (s.maxOutLength.kind = .flat ∧ s.maxOutLength.bounds.height = 0)) ∧
    (∀ s : ShapeSegment, s.kind = .flat → s.containedLength = s.bounds.width) := by
  refine ⟨height_mkFlatSegment, FlatZero_addAt, FlatZero_removeAt, ?_, ?_, ?_, ?_⟩
  · intro len rb self after r hrb hafter hself h
    obtain ⟨h1, h2, h3, h4⟩ := FlatZero_advanceZ len rb self after r hrb hafter hself h
    exact ⟨FlatZero_parts r h1 h2 h4, h3⟩
  · intro len rb self after hrb hafter hself
    obtain ⟨h1, h2, h3, h4⟩ := FlatZero_advanceAndRemoveZ len rb self after hrb hafter hself
    exact ⟨FlatZero_parts _ h1 h2 h4, h3⟩
  · intro s hk h0
    refine ⟨by rw [ShapeSegment.kind_maxOutLength]; exact hk, ?_⟩
    exact flatHeightZero_maxOutLength s (fun _ => h0) (by rw [ShapeSegment.kind_maxOutLength]; exact hk)
  · intro s hk
    simp [containedLength, hk]

/-- Witness for C10 at concrete inputs: construction yields height zero,
and a concrete overflowing add keeps every flat segment flat. -/
theorem claim_C10_flat_segments_stay_flat_witness :
    (mkFlatSegment (3, 7)).bounds.height = 0 ∧
    FlatZero [sampleFlat100] ∧ FlatZero (addAt [sampleFlat100] 0 250) := by
  have hfz : FlatZero [sampleFlat100] := by
    intro s hs
    rcases List.mem_singleton.mp hs with rfl
    intro _
    simp [sampleFlat100, Bounds.height, Bounds.setMinMax]
  exact ⟨claim_C10_flat_segments_stay_flat.1 (3, 7), hfz,
    claim_C10_flat_segments_stay_flat.2.1 [sampleFlat100] 0 250 hfz⟩

/-- A quiescent strand: one flat segment holding 100 units, a two-point
chain of total length 100, nothing attached. -/
def sampleMRna : MRna :=
  { shapeSegments := [sampleFlat100]
    chain := [0, 100]
    mapRibosomeToShapeSegment := []
    messengerRnaDestroyer := none
    segmentWhereDestroyerConnects := none
    asmState := AsmState.unattachedAndAvailable }

/-- A strand whose destruction has been accepted (destroyer reference 5,
connected at segment 0). -/
def sampleMRnaDestroying : MRna :=
  { sampleMRna with
      messengerRnaDestroyer := some 5
      segmentWhereDestroyerConnects := some 0
      asmState := AsmState.beingDestroyed }

/-- A strand with ribosome 1 attached to its only segment, and a chain
shorter than the segment content (to exhibit a proportion above 1). -/
def sampleMRnaTranslating : MRna :=
  { sampleMRna with
      chain := [0, 10]
      mapRibosomeToShapeSegment := [(1, 0)]
      asmState := AsmState.beingTranslated }

/-- A ribosome and a destroyer used in witnesses. -/
def sampleRibosome : Ribosome := ⟨1, (0, 0), 300⟩

def sampleDestroyer : Destroyer := ⟨5, (0, 0), 250⟩

/-- C4: Destruction is terminal: once the strand's `messengerRnaDestroyer`
reference is non-null, `considerProposalFromByRibosome` and
`considerProposalFromByMessengerRnaDestroyer` return null and leave the
state unchanged (so every subsequent call keeps returning null), until
`abortDestruction` is called, which resets the destroyer reference to null
and forces the attachment state machine back to
unattached-and-available. -/
theorem claim_C4_destruction_terminal (m : MRna) (d : ℕ) (rib : Ribosome)
    (des : Destroyer) (h : m.messengerRnaDestroyer = some d) :
    m.considerProposalFromByRibosome rib = some (none, m) ∧
    m.considerProposalFromByMessengerRnaDestroyer des = some (none, m) ∧
    m.abortDestruction.messengerRnaDestroyer = none ∧
    m.abortDestruction.asmState = AsmState.unattachedAndAvailable := by
  refine ⟨?_, ?_, rfl, rfl⟩
  · simp [MRna.considerProposalFromByRibosome, h]
  · simp [MRna.considerProposalFromByMessengerRnaDestroyer, h]

/-- Witness for C4 at a concrete destroying strand. -/
theorem claim_C4_destruction_terminal_witness :
    sampleMRnaDestroying.messengerRnaDestroyer = some 5 ∧
    (sampleMRnaDestroying.considerProposalFromByRibosome sampleRibosome =
        some (none, sampleMRnaDestroying) ∧
      sampleMRnaDestroying.considerProposalFromByMessengerRnaDestroyer sampleDestroyer =
        some (none, sampleMRnaDestroying) ∧
      sampleMRnaDestroying.abortDestruction.messengerRnaDestroyer = none ∧
      sampleMRnaDestroying.abortDestruction.asmState = AsmState.unattachedAndAvailable) :=
  ⟨rfl, claim_C4_destruction_terminal sampleMRnaDestroying 5 sampleRibosome sampleDestroyer rfl⟩

/-- C9: Rejected proposals are side-effect free: whenever
`considerProposalFromByRibosome` or
`considerProposalFromByMessengerRnaDestroyer` returns null, the strand
state is completely unchanged (in particular no map entry is added, the
destroyer reference is untouched, and no state-machine notification is
issued). -/
theorem claim_C9_rejected_proposals_side_effect_free (m m' : MRna) (rib : Ribosome)
    (des : Destroyer) :
    (m.considerProposalFromByRibosome rib = some (none, m') → m' = m) ∧
    (m.considerProposalFromByMessengerRnaDestroyer des = some (none, m') → m' = m) := by
  constructor
  · intro h
    unfold MRna.considerProposalFromByRibosome at h
    rcases hd : m.messengerRnaDestroyer with _ | d <;> rw [hd] at h
    · rcases hh : m.shapeSegments.head? with _ | seg0 <;> rw [hh] at h
      · cases h
      · simp only at h
        split at h
        · simp at h
        · simp only [Option.some_inj, Prod.mk.injEq] at h
          exact h.2.symm
    · simp only [Option.some_inj, Prod.mk.injEq] at h
      exact h.2.symm
  · intro h
    unfold MRna.considerProposalFromByMessengerRnaDestroyer at h
    rcases hd : m.messengerRnaDestroyer with _ | d <;> rw [hd] at h
    · rcases hh : m.shapeSegments.head? with _ | seg0 <;> rw [hh] at h
      · cases h
      · simp only at h
        split at h
        · simp at h
        · simp only [Option.some_inj, Prod.mk.injEq] at h
          exact h.2.symm
    · simp only [Option.some_inj, Prod.mk.injEq] at h
      exact h.2.symm

/-- Witness for C9: a rejection (during destruction) leaves the concrete
state unchanged. -/
theorem claim_C9_rejected_proposals_side_effect_free_witness :
    sampleMRnaDestroying.considerProposalFromByRibosome sampleRibosome =
      some (none, sampleMRnaDestroying) ∧
    sampleMRnaDestroying = sampleMRnaDestroying := by
  have h : sampleMRnaDestroying.considerProposalFromByRibosome sampleRibosome =
      some (none, sampleMRnaDestroying) := by
    simp [MRna.considerProposalFromByRibosome, sampleMRnaDestroying, sampleMRna]
  exact ⟨h, (claim_C9_rejected_proposals_side_effect_free sampleMRnaDestroying
    sampleMRnaDestroying sampleRibosome sampleDestroyer).1 h⟩

/-- C7 counterexample: for a ribosome that is not in the map,
`getRibosomeAttachmentLocation` warns and returns null — not the zero
vector the claim states. -/
theorem claim_C7_counterexample :
    sampleMRna.getRibosomeAttachmentLocation sampleRibosome = some (true, none) ∧
    some (true, (none : Option (ℚ × ℚ))) ≠ some (true, some ((0 : ℚ), (0 : ℚ))) :=
  ⟨rfl, by simp⟩

/-- C7 (amended): for every ribosome that is not in the strand's
ribosome-to-segment map, `getRibosomeAttachmentLocation` logs a warning
and returns null (not a zero vector) rather than raising an error. -/
theorem claim_C7_attachment_location_unmapped (m : MRna) (rib : Ribosome)
    (h : m.mapGet rib.rid = none) :
    m.getRibosomeAttachmentLocation rib = some (true, none) := by
  simp [MRna.getRibosomeAttachmentLocation, h]

/-- Witness for the amended C7 at a concrete strand with an empty map. -/
theorem claim_C7_attachment_location_unmapped_witness :
    sampleMRna.mapGet sampleRibosome.rid = none ∧
    sampleMRna.getRibosomeAttachmentLocation sampleRibosome = some (true, none) :=
  ⟨rfl, claim_C7_attachment_location_unmapped sampleMRna sampleRibosome rfl⟩

/-- C8: with no destroyer-connection segment, `advanceDestruction` logs a
warning and returns true ("already complete") with the strand state —
segment list and point chain included — completely unchanged. -/
theorem claim_C8_advance_destruction_no_segment (m : MRna) (len : ℚ)
    (h : m.segmentWhereDestroyerConnects = none) :
    m.advanceDestruction len = some (true, true, m) := by
  simp [MRna.advanceDestruction, h]

/-- Witness for C8 at a concrete strand. -/
theorem claim_C8_advance_destruction_no_segment_witness :
    sampleMRna.segmentWhereDestroyerConnects = none ∧
    sampleMRna.advanceDestruction 37 = some (true, true, sampleMRna) :=
  ⟨rfl, claim_C8_advance_destruction_no_segment sampleMRna 37 rfl⟩

/-- C6: `getProportionOfRnaTranslated` for an attached ribosome returns
the sum of contained lengths of the segments preceding the ribosome's
segment, plus the ribosome's own segment's content past the channel
entrance (contained length minus the distance from the segment's
lower-right corner x to the attachment-site x), divided by the total
strand length and clamped below at zero via `max(·, 0)`; the result is
always non-negative but — with no upper clamp — can exceed 1. -/
theorem claim_C6_proportion_translated (m : MRna) (rib : Ribosome) (idx : ℕ)
    (seg : ShapeSegment) (hm : m.mapGet rib.rid = some idx)
    (hs : m.shapeSegments.get? idx = some seg) :
    m.getProportionOfRnaTranslated rib =
      some (max ((listSum (m.shapeSegments.take idx) +
        (seg.containedLength - (seg.lowerRightCorner.1 - seg.attachmentSiteX))) /
          getLength m.chain) 0) ∧
    (∀ q, m.getProportionOfRnaTranslated rib = some q → 0 ≤ q) ∧
    (∃ (m₁ : MRna) (r₁ : Ribosome) (q₁ : ℚ),
      m₁.getProportionOfRnaTranslated r₁ = some q₁ ∧ 1 < q₁) := by
  have hs' : m.shapeSegments[idx]? = some seg := by
    rw [← List.get?_eq_getElem?]
    exact hs
  have heq : m.getProportionOfRnaTranslated rib =
      some (max ((listSum (m.shapeSegments.take idx) +
        (seg.containedLength - (seg.lowerRightCorner.1 - seg.attachmentSiteX))) /
          getLength m.chain) 0) := by
    simp [MRna.getProportionOfRnaTranslated, hm, hs, hs']
  refine ⟨heq, ?_, ?_⟩
  · intro q hq
    rw [heq] at hq
    cases hq
    exact le_max_right _ _
  · refine ⟨sampleMRnaTranslating, sampleRibosome, 10, ?_, by norm_num⟩
    simp only [MRna.getProportionOfRnaTranslated,
      show sampleMRnaTranslating.mapGet sampleRibosome.rid = some 0 from rfl,
      show sampleMRnaTranslating.shapeSegments.get? 0 = some sampleFlat100 from rfl,
      show sampleMRnaTranslating.shapeSegments[0]? = some sampleFlat100 from rfl]
    norm_num [listSum, getLength, chainSum, sampleMRnaTranslating, sampleMRna,
      sampleFlat100, mkFlatSegment, ShapeSegment.setCapacity, containedLength,
      lowerRightCorner, Bounds.width, Bounds.setMinMax]

/-- Witness for C6 at a concrete translating strand (where the proportion
evaluates to 10, exhibiting the missing upper clamp). -/
theorem claim_C6_proportion_translated_witness :
    sampleMRnaTranslating.getProportionOfRnaTranslated sampleRibosome =
      some (max ((listSum (sampleMRnaTranslating.shapeSegments.take 0) +
        (sampleFlat100.containedLength -
          (sampleFlat100.lowerRightCorner.1 - sampleFlat100.attachmentSiteX))) /
            getLength sampleMRnaTranslating.chain) 0) :=
  (claim_C6_proportion_translated sampleMRnaTranslating sampleRibosome 0 sampleFlat100
    rfl rfl).1

/-! ## Sum lemmas for the zipper operations -/

theorem listSum_nil : listSum [] = 0 := rfl

theorem listSum_cons (s : ShapeSegment) (l : List ShapeSegment) :
    listSum (s :: l) = s.containedLength + listSum l := by
  simp [listSum]

theorem listSum_append (l₁ l₂ : List ShapeSegment) :
    listSum (l₁ ++ l₂) = listSum l₁ + listSum l₂ := by
  simp [listSum]

/-- With an output segment present, `outputSegment.add` succeeds and adds
exactly the requested amount to the output side's total contained
length. -/
theorem addToOutput_cons (out : ShapeSegment) (rest : List ShapeSegment) (amt : ℚ) :
    ∃ rb', addToOutput (out :: rest) amt = some rb' ∧
      listSum rb' = listSum (out :: rest) + amt := by
  cases ha : addSeg out amt with
  | mk out' ins =>
    have htot := addSeg_total out amt
    rw [ha] at htot
    rcases ins with _ | sq
    · refine ⟨out' :: rest, by simp [addToOutput, ha], ?_⟩
      simp only [Option.map_none', Option.getD_none] at htot
      rw [listSum_cons, listSum_cons]
      linarith
    · refine ⟨sq :: out' :: rest, by simp [addToOutput, ha], ?_⟩
      simp only [Option.map_some', Option.getD_some] at htot
      rw [listSum_cons, listSum_cons, listSum_cons]
      linarith

theorem addToOutput_sum (rb rb' : List ShapeSegment) (amt : ℚ)
    (h : addToOutput rb amt = some rb') : listSum rb' = listSum rb + amt := by
  rcases rb with _ | ⟨out, rest⟩
  · cases h
  · obtain ⟨rb'', h1, h2⟩ := addToOutput_cons out rest amt
    rw [h1] at h
    cases h
    exact h2

theorem removeFromInput_cons (input : ShapeSegment) (rest : List ShapeSegment) (amt : ℚ) :
    removeFromInput (input :: rest) amt =
      if (removeSeg input amt).2 then (removeSeg input amt).1 :: rest else rest := by
  unfold removeFromInput
  cases hrm : removeSeg input amt with
  | mk s' stays => simp [hrm]

theorem listSum_removeFromInput_cons (input : ShapeSegment) (rest : List ShapeSegment)
    (amt : ℚ) (hstay : ¬ input.containedLength - amt < FLOATING_POINT_COMP_FACTOR) :
    listSum (removeFromInput (input :: rest) amt) =
      listSum (input :: rest) - amt := by
  rw [removeFromInput_cons]
  have h1 := containedLength_removeSeg_fst input amt
  have h2 := removeSeg_snd input amt
  rw [h1] at h2
  rw [if_pos (by rw [h2]; exact decide_eq_true hstay), listSum_cons, listSum_cons, h1]
  ring

theorem listSum_removeFromInput_splice (input : ShapeSegment) (rest : List ShapeSegment)
    (amt : ℚ) (hgone : input.containedLength - amt < FLOATING_POINT_COMP_FACTOR) :
    listSum (removeFromInput (input :: rest) amt) = listSum rest := by
  rw [removeFromInput_cons]
  have h1 := containedLength_removeSeg_fst input amt
  have h2 := removeSeg_snd input amt
  rw [h1] at h2
  rw [if_neg (by rw [h2]; simp [hgone])]

theorem containedLength_maxOutLength (s : ShapeSegment) (cap : ℚ)
    (hk : s.kind = .flat) (hc : s.capacity = some cap) :
    s.maxOutLength.containedLength = cap := by
  unfold ShapeSegment.maxOutLength
  rw [hc]
  simp [containedLength, hk, Bounds.width, Bounds.setMinMax]

theorem eps_pos : 0 < FLOATING_POINT_COMP_FACTOR := by
  norm_num [FLOATING_POINT_COMP_FACTOR]

theorem containedLength_mkFlatSegment (o : ℚ × ℚ) :
    (mkFlatSegment o).containedLength = 0 := by
  simp [mkFlatSegment, containedLength, Bounds.width, Bounds.setMinMax]

theorem containedLength_setCapacity (s : ShapeSegment) (c : ℚ) :
    (s.setCapacity c).containedLength = s.containedLength := rfl

/-- The `selfInList` slot produced by an epsilon-checked removal, in
if-then-else form. -/
theorem removeSeg_selfInList (s : ShapeSegment) (len : ℚ) :
    (if (removeSeg s len).2 then some (removeSeg s len).1 else none) =
      (if (removeSeg s len).1.containedLength < FLOATING_POINT_COMP_FACTOR
        then none else some (removeSeg s len).1) := by
  rw [removeSeg_snd]
  by_cases h : (removeSeg s len).1.containedLength < FLOATING_POINT_COMP_FACTOR
  · simp [h]
  · simp [h]

theorem removeFromInput_cons_ite (input : ShapeSegment) (rest : List ShapeSegment)
    (amt : ℚ) :
    removeFromInput (input :: rest) amt =
      (if input.containedLength - amt < FLOATING_POINT_COMP_FACTOR
        then rest else (removeSeg input amt).1 :: rest) := by
  rw [removeFromInput_cons, removeSeg_snd, containedLength_removeSeg_fst]
  by_cases h : input.containedLength - amt < FLOATING_POINT_COMP_FACTOR
  · simp [h]
  · simp [h]

/-- C2 counterexample: at a single-segment list (no output segment and no
input segment) the advance dereferences a null output segment and crashes
instead of performing the rule's shrink-and-grow, refuting the claim's
universal three-case behaviour. -/
theorem claim_C2_counterexample :
    advanceZ 100 [] sampleFlat100 [] = none ∧
    sampleFlat100.kind = .flat ∧ (0 : ℚ) < 100 := by
  refine ⟨?_, rfl, by norm_num⟩
  rw [advanceZ_no_input]
  rfl

/-- C2 (amended): for every flat segment and every length `L > 0`,
`advance(L)` follows the three-case rule whenever the output segment it
pushes into exists (without it the shrink cases crash on a null
dereference, see the counterexample):
1. with no input segment it shrinks itself by `min(L, containedLength)`
   (removing itself from the list when the residue falls below the
   comparison factor) and grows the output side by the same amount;
2. with an input segment holding more than `L` it pulls `L` into itself —
   exactly, when it has room; otherwise filling up to capacity (when more
   than the comparison factor of room remains) and passing the excess
   beyond its remaining capacity to the output side — and shrinks the
   input segment by `L` (splicing it out below the comparison factor);
3. otherwise it drains the input segment completely (deleting it), shrinks
   itself by the shortfall `L - input.containedLength`, and grows the
   output side by the full `L`. -/
theorem claim_C2_advance_three_cases (L : ℚ) (rb : List ShapeSegment)
    (self : ShapeSegment) (after : List ShapeSegment) (hL : 0 < L)
    (hk : self.kind = .flat) :
    (after = [] → rb ≠ [] →
      ∃ r, advanceZ L rb self after = some r ∧
        listSum r.rbefore = listSum rb + min L self.containedLength ∧
        r.selfObj.containedLength = self.containedLength - min L self.containedLength ∧
        r.after = [] ∧
        r.selfInList = (if r.selfObj.containedLength < FLOATING_POINT_COMP_FACTOR
          then none else some r.selfObj)) ∧
    (∀ input rest, after = input :: rest → input.containedLength > L → rb ≠ [] →
      ∃ r, advanceZ L rb self after = some r ∧
        r.selfInList = some r.selfObj ∧
        r.after = (if input.containedLength - L < FLOATING_POINT_COMP_FACTOR
          then rest else (removeSeg input L).1 :: rest) ∧
        (removeSeg input L).1.containedLength = input.containedLength - L ∧
        ((self.capacity = none ∨
            (∃ cap, self.capacity = some cap ∧ self.containedLength + L ≤ cap)) →
          r.rbefore = rb ∧ r.selfObj.containedLength = self.containedLength + L) ∧
        (∀ cap, self.capacity = some cap → self.containedLength + L > cap →
          listSum r.rbefore = listSum rb + (L - (cap - self.containedLength)) ∧
          (cap - self.containedLength > FLOATING_POINT_COMP_FACTOR →
            r.selfObj.containedLength = cap) ∧
          (cap - self.containedLength ≤ FLOATING_POINT_COMP_FACTOR →
            r.selfObj = self))) ∧
    (∀ input rest, after = input :: rest → input.containedLength ≤ L → rb ≠ [] →
      ∃ r, advanceZ L rb self after = some r ∧
        listSum r.rbefore = listSum rb + L ∧
        r.selfObj.containedLength = self.containedLength - (L - input.containedLength) ∧
        r.after = rest ∧
        r.selfInList = (if r.selfObj.containedLength < FLOATING_POINT_COMP_FACTOR
          then none else some r.selfObj)) := by
  refine ⟨?_, ?_, ?_⟩
  · -- Case 1: no input segment.
    rintro rfl hrb
    rcases rb with _ | ⟨out, rest'⟩
    · exact absurd rfl hrb
    · obtain ⟨rb', ho, hsum⟩ := addToOutput_cons out rest' (min L self.containedLength)
      refine ⟨⟨rb',
        if (removeSeg self (min L self.containedLength)).2
          then some (removeSeg self (min L self.containedLength)).1 else none,
        [], (removeSeg self (min L self.containedLength)).1⟩, ?_, ?_, ?_, rfl, ?_⟩
      · rw [advanceZ_no_input, ho]
        rfl
      · exact hsum
      · exact containedLength_removeSeg_fst self _
      · exact removeSeg_selfInList self _
  · -- Case 2: the input segment can supply the full length.
    rintro input rest rfl hin hrb
    have hrm1 := containedLength_removeSeg_fst input L
    rcases hc : self.capacity with _ | cap
    · refine ⟨⟨rb, some (addSeg self L).1, removeFromInput (input :: rest) L,
        (addSeg self L).1⟩, advanceZ_pull_nocap L rb self input rest hin hc, rfl,
        removeFromInput_cons_ite input rest L, hrm1, ?_, ?_⟩
      · intro _
        refine ⟨rfl, ?_⟩
        rw [addSeg_nocap self L hk hc]
        exact containedLength_flatGrow self L hk
      · intro cap hcap
        cases hcap
    · by_cases hle : self.containedLength + L ≤ cap
      · refine ⟨⟨rb, some (addSeg self L).1, removeFromInput (input :: rest) L,
          (addSeg self L).1⟩, advanceZ_pull_fits L rb self input rest cap hin hc hle,
          rfl, removeFromInput_cons_ite input rest L, hrm1, ?_, ?_⟩
        · intro _
          refine ⟨rfl, ?_⟩
          rw [addSeg_of_le self L cap hk hc hle]
          exact containedLength_flatGrow self L hk
        · intro cap' hcap' hgt'
          injection hcap' with hcapeq
          subst hcapeq
          linarith
      · have hrem : self.getRemainingCapacity = cap - self.containedLength := by
          simp [ShapeSegment.getRemainingCapacity, hc]
        by_cases hroom : self.getRemainingCapacity > FLOATING_POINT_COMP_FACTOR
        · -- fill up and create / use the leader in front
          obtain ⟨rb', ho, hsum⟩ := addToOutput_cons
            ((mkFlatSegment self.maxOutLength.upperLeftCorner).setCapacity LEADER_LENGTH)
            rb (L - self.getRemainingCapacity)
          refine ⟨⟨rb', some self.maxOutLength, removeFromInput (input :: rest) L,
            self.maxOutLength⟩, ?_, rfl, removeFromInput_cons_ite input rest L, hrm1,
            ?_, ?_⟩
          · rw [advanceZ_pull_fillup L rb self input rest cap hin hc hle hroom, ho]
            rfl
          · rintro (hnone | ⟨cap', hcap', hle'⟩)
            · cases hnone
            · injection hcap' with hcapeq
              subst hcapeq
              exact absurd hle' hle
          · intro cap' hcap' _
            injection hcap' with hcapeq
            subst hcapeq
            refine ⟨?_, fun _ => containedLength_maxOutLength self cap hk hc, ?_⟩
            · rw [hsum, listSum_cons, containedLength_setCapacity,
                containedLength_mkFlatSegment, hrem]
              ring
            · intro habs
              rw [hrem] at hroom
              linarith
        · -- no room worth filling: everything goes to the output segment
          rcases rb with _ | ⟨out, rest'⟩
          · exact absurd rfl hrb
          · obtain ⟨rb', ho, hsum⟩ := addToOutput_cons out rest'
              (L - self.getRemainingCapacity)
            refine ⟨⟨rb', some self, removeFromInput (input :: rest) L, self⟩, ?_,
              rfl, removeFromInput_cons_ite input rest L, hrm1, ?_, ?_⟩
            · rw [advanceZ_pull_full L (out :: rest') self input rest cap hin hc hle hroom, ho]
              rfl
            · rintro (hnone | ⟨cap', hcap', hle'⟩)
              · cases hnone
              · injection hcap' with hcapeq
                subst hcapeq
                exact absurd hle' hle
            · intro cap' hcap' _
              injection hcap' with hcapeq
              subst hcapeq
              refine ⟨?_, ?_, fun _ => rfl⟩
              · rw [hsum, hrem]
              · intro hgt
                rw [hrem] at hroom
                linarith
  · -- Case 3: drain the input segment and rebalance three ways.
    rintro input rest rfl hle hrb
    have hin : ¬ input.containedLength > L := by linarith
    rcases rb with _ | ⟨out, rest'⟩
    · exact absurd rfl hrb
    · obtain ⟨rb', ho, hsum⟩ := addToOutput_cons out rest' L
      refine ⟨⟨rb',
        if (removeSeg self (L - input.containedLength)).2
          then some (removeSeg self (L - input.containedLength)).1 else none,
        removeFromInput (input :: rest) input.containedLength,
        (removeSeg self (L - input.containedLength)).1⟩, ?_, hsum, ?_, ?_, ?_⟩
      · rw [advanceZ_drain L (out :: rest') self input rest hin, ho]
        rfl
      · exact containedLength_removeSeg_fst self _
      · show removeFromInput (input :: rest) input.containedLength = rest
        rw [removeFromInput_cons_ite]
        rw [if_pos (by simpa using eps_pos)]
      · exact removeSeg_selfInList self _

/-- Witness for the amended C2 at a concrete input: case 1 (no input
segment) on a strand with a square output segment. -/
theorem claim_C2_advance_three_cases_witness :
    (0 : ℚ) < 40 ∧ sampleFlat100.kind = .flat ∧
    (∃ r, advanceZ 40 [sampleSquare 0] sampleFlat100 [] = some r ∧
      listSum r.rbefore = listSum [sampleSquare 0] + min 40 sampleFlat100.containedLength ∧
      r.selfObj.containedLength =
        sampleFlat100.containedLength - min 40 sampleFlat100.containedLength ∧
      r.after = [] ∧
      r.selfInList = (if r.selfObj.containedLength < FLOATING_POINT_COMP_FACTOR
        then none else some r.selfObj)) :=
  ⟨by norm_num, rfl,
    (claim_C2_advance_three_cases 40 [sampleSquare 0] sampleFlat100 [] (by norm_num) rfl).1
      rfl (by simp)⟩

/-! ## Length accounting for advance, advanceAndRemove and reduceLength -/

theorem listSum_reverse (l : List ShapeSegment) : listSum l.reverse = listSum l := by
  simp [listSum, List.sum_reverse]

theorem toList_sum (r : AdvanceResult) :
    listSum r.toList =
      listSum r.rbefore + ((r.selfInList.map containedLength).getD 0) + listSum r.after := by
  unfold AdvanceResult.toList
  rcases hs : r.selfInList with _ | s <;>
    simp [listSum_append, listSum_reverse, hs, listSum_cons, listSum_nil] <;> ring

/-- `addSeg` with the base-class unlimited capacity: no overflow segment,
the segment grows by exactly the requested length. -/
theorem addSeg_exact_nocap (s : ShapeSegment) (len : ℚ) (hc : s.capacity = none) :
    (addSeg s len).2 = none ∧
      (addSeg s len).1.containedLength = s.containedLength + len := by
  rcases hk : s.kind with _ | _
  · rw [addSeg_nocap s len hk hc]
    exact ⟨rfl, containedLength_flatGrow s len hk⟩
  · rw [addSeg_square s len hk]
    exact ⟨rfl, by simp [containedLength, hk]⟩

/-- `addSeg` within a finite capacity: no overflow segment, the segment
grows by exactly the requested length. -/
theorem addSeg_exact_fits (s : ShapeSegment) (len cap : ℚ) (hc : s.capacity = some cap)
    (hle : s.containedLength + len ≤ cap) :
    (addSeg s len).2 = none ∧
      (addSeg s len).1.containedLength = s.containedLength + len := by
  rcases hk : s.kind with _ | _
  · rw [addSeg_of_le s len cap hk hc hle]
    exact ⟨rfl, containedLength_flatGrow s len hk⟩
  · rw [addSeg_square s len hk]
    exact ⟨rfl, by simp [containedLength, hk]⟩

/-- One `advance` never increases the total contained length of the
segment list, and decreases it by strictly less than twice the comparison
factor: the only losses are the sub-epsilon residue of a spliced segment
and the sub-epsilon remaining capacity absorbed by the
`remainingCapacity ≤ epsilon` branch. -/
theorem advanceZ_sum_drift (L : ℚ) (rb : List ShapeSegment) (self : ShapeSegment)
    (after : List ShapeSegment) (r : AdvanceResult) (hk : self.kind = .flat)
    (hcap : ∀ cap, self.capacity = some cap → self.containedLength ≤ cap)
    (hguard : ∀ inp rest, after = inp :: rest → inp.containedLength ≤ L →
      L ≤ self.containedLength + inp.containedLength)
    (h : advanceZ L rb self after = some r) :
    listSum r.toList ≤ listSum rb + self.containedLength + listSum after ∧
    listSum rb + self.containedLength + listSum after -
      2 * FLOATING_POINT_COMP_FACTOR < listSum r.toList := by
  have heps := eps_pos
  rcases after with _ | ⟨input, rest⟩
  · -- no input segment
    rw [advanceZ_no_input] at h
    rcases ho : addToOutput rb (min L self.containedLength) with _ | rb' <;> rw [ho] at h
    · cases h
    · simp only [Option.map_some', Option.some_inj] at h
      subst h
      have hsum := addToOutput_sum rb rb' (min L self.containedLength) ho
      have hresid : (0:ℚ) ≤ self.containedLength - min L self.containedLength := by
        have := min_le_right L self.containedLength
        linarith
      rw [toList_sum]
      simp only [listSum_nil]
      rw [removeSeg_snd, containedLength_removeSeg_fst]
      by_cases hsp : self.containedLength - min L self.containedLength <
          FLOATING_POINT_COMP_FACTOR
      · rw [if_neg (by simp [hsp])]
        simp only [Option.map_none', Option.getD_none]
        constructor <;> linarith
      · rw [if_pos (by simp [hsp])]
        simp only [Option.map_some', Option.getD_some]
        rw [containedLength_removeSeg_fst]
        constructor <;> linarith
  · -- an input segment is present
    by_cases hin : input.containedLength > L
    · -- the input can supply the full length
      have hsplice :
          listSum (removeFromInput (input :: rest) L) ≤ listSum (input :: rest) - L ∧
          listSum (input :: rest) - L - FLOATING_POINT_COMP_FACTOR <
            listSum (removeFromInput (input :: rest) L) := by
        by_cases hsp : input.containedLength - L < FLOATING_POINT_COMP_FACTOR
        · rw [listSum_removeFromInput_splice input rest L hsp, listSum_cons]
          constructor <;> linarith
        · rw [listSum_removeFromInput_cons input rest L hsp]
          constructor <;> linarith
      rcases hc : self.capacity with _ | cap
      · rw [advanceZ_pull_nocap L rb self input rest hin hc] at h
        cases h
        rw [toList_sum]
        simp only [Option.map_some', Option.getD_some]
        have hgrow := (addSeg_exact_nocap self L hc).2
        rw [hgrow]
        constructor <;> linarith [hsplice.1, hsplice.2]
      · by_cases hle : self.containedLength + L ≤ cap
        · rw [advanceZ_pull_fits L rb self input rest cap hin hc hle] at h
          cases h
          rw [toList_sum]
          simp only [Option.map_some', Option.getD_some]
          have hgrow := (addSeg_exact_fits self L cap hc hle).2
          rw [hgrow]
          constructor <;> linarith [hsplice.1, hsplice.2]
        · have hrem : self.getRemainingCapacity = cap - self.containedLength := by
            simp [ShapeSegment.getRemainingCapacity, hc]
          have hrem0 : 0 ≤ self.getRemainingCapacity := by
            rw [hrem]
            have := hcap cap hc
            linarith
          by_cases hroom : self.getRemainingCapacity > FLOATING_POINT_COMP_FACTOR
          · rw [advanceZ_pull_fillup L rb self input rest cap hin hc hle hroom] at h
            rcases ho : addToOutput
                ((mkFlatSegment self.maxOutLength.upperLeftCorner).setCapacity LEADER_LENGTH :: rb)
                (L - self.getRemainingCapacity) with _ | rb' <;> rw [ho] at h
            · cases h
            · simp only [Option.map_some', Option.some_inj] at h
              subst h
              have hsum := addToOutput_sum _ rb' (L - self.getRemainingCapacity) ho
              rw [listSum_cons, containedLength_setCapacity, containedLength_mkFlatSegment] at hsum
              rw [toList_sum]
              simp only [Option.map_some', Option.getD_some]
              rw [containedLength_maxOutLength self cap hk hc]
              rw [hrem] at hsum
              constructor <;> linarith [hsplice.1, hsplice.2]
          · rw [advanceZ_pull_full L rb self input rest cap hin hc hle hroom] at h
            rcases ho : addToOutput rb (L - self.getRemainingCapacity) with _ | rb' <;>
              rw [ho] at h
            · cases h
            · simp only [Option.map_some', Option.some_inj] at h
              subst h
              have hsum := addToOutput_sum rb rb' (L - self.getRemainingCapacity) ho
              have hroom' : self.getRemainingCapacity ≤ FLOATING_POINT_COMP_FACTOR := by
                linarith [not_lt.mp hroom]
              rw [toList_sum]
              simp only [Option.map_some', Option.getD_some]
              constructor <;> linarith [hsplice.1, hsplice.2]
    · -- the input cannot supply the full length: drain it
      rw [advanceZ_drain L rb self input rest hin] at h
      rcases ho : addToOutput rb L with _ | rb' <;> rw [ho] at h
      · cases h
      · simp only [Option.map_some', Option.some_inj] at h
        subst h
        have hsum := addToOutput_sum rb rb' L ho
        have hb : input.containedLength ≤ L := le_of_not_lt hin
        have hg := hguard input rest rfl hb
        have hafter : listSum (removeFromInput (input :: rest) input.containedLength) =
            listSum rest :=
          listSum_removeFromInput_splice input rest input.containedLength
            (by simpa using heps)
        rw [toList_sum, hafter]
        rw [removeSeg_snd, containedLength_removeSeg_fst]
        by_cases hsp : self.containedLength - (L - input.containedLength) <
            FLOATING_POINT_COMP_FACTOR
        · rw [if_neg (by simp [hsp])]
          simp only [Option.map_none', Option.getD_none]
          rw [listSum_cons]
          constructor <;> linarith
        · rw [if_pos (by simp [hsp])]
          simp only [Option.map_some', Option.getD_some]
          rw [containedLength_removeSeg_fst, listSum_cons]
          constructor <;> linarith

/-- One `advanceAndRemove` takes exactly the requested amount out of the
segment list, up to the sub-epsilon residue of a spliced segment. -/
theorem advanceAndRemoveZ_sum_drift (amount : ℚ) (rb : List ShapeSegment)
    (self : ShapeSegment) (after : List ShapeSegment)
    (hnil : after = [] → amount ≤ self.containedLength)
    (hguard : ∀ inp rest, after = inp :: rest → inp.containedLength ≤ amount →
      amount ≤ self.containedLength + inp.containedLength) :
    listSum (advanceAndRemoveZ amount rb self after).toList ≤
      listSum rb + self.containedLength + listSum after - amount ∧
    listSum rb + self.containedLength + listSum after - amount -
      FLOATING_POINT_COMP_FACTOR <
      listSum (advanceAndRemoveZ amount rb self after).toList := by
  have heps := eps_pos
  rcases after with _ | ⟨input, rest⟩
  · rw [advanceAndRemoveZ_no_input]
    have hle := hnil rfl
    have hmin : min amount self.containedLength = amount := min_eq_left hle
    rw [toList_sum]
    simp only [listSum_nil, hmin]
    rw [removeSeg_snd, containedLength_removeSeg_fst]
    by_cases hsp : self.containedLength - amount < FLOATING_POINT_COMP_FACTOR
    · rw [if_neg (by simp [hsp])]
      simp only [Option.map_none', Option.getD_none]
      constructor <;> linarith
    · rw [if_pos (by simp [hsp])]
      simp only [Option.map_some', Option.getD_some]
      rw [containedLength_removeSeg_fst]
      constructor <;> linarith
  · by_cases hin : input.containedLength > amount
    · rw [advanceAndRemoveZ_pull amount rb self input rest hin]
      rw [toList_sum]
      simp only [Option.map_some', Option.getD_some]
      by_cases hsp : input.containedLength - amount < FLOATING_POINT_COMP_FACTOR
      · rw [listSum_removeFromInput_splice input rest amount hsp, listSum_cons]
        constructor <;> linarith
      · rw [listSum_removeFromInput_cons input rest amount hsp, listSum_cons]
        constructor <;> linarith
    · rw [advanceAndRemoveZ_drain amount rb self input rest hin]
      have hb : input.containedLength ≤ amount := le_of_not_lt hin
      have hg := hguard input rest rfl hb
      have hafter : listSum (removeFromInput (input :: rest) input.containedLength) =
          listSum rest :=
        listSum_removeFromInput_splice input rest input.containedLength
          (by simpa using heps)
      rw [toList_sum, hafter]
      rw [removeSeg_snd, containedLength_removeSeg_fst]
      by_cases hsp : self.containedLength - (amount - input.containedLength) <
          FLOATING_POINT_COMP_FACTOR
      · rw [if_neg (by simp [hsp])]
        simp only [Option.map_none', Option.getD_none]
        rw [listSum_cons]
        constructor <;> linarith
      · rw [if_pos (by simp [hsp])]
        simp only [Option.map_some', Option.getD_some]
        rw [containedLength_removeSeg_fst, listSum_cons]
        constructor <;> linarith

/-- The point-removal loop takes exactly the requested amount out of the
chain (reversed form). -/
theorem trimRev_sum (l : List ℚ) (amt : ℚ) (h0 : 0 ≤ amt) (hle : amt ≤ l.sum) :
    (trimRev l amt).sum = l.sum - amt := by
  induction l generalizing amt with
  | nil =>
    have : amt = 0 := le_antisymm (by simpa using hle) h0
    subst this
    rw [trimRev]
    simp
  | cons d rest ih =>
    rw [trimRev]
    by_cases h0' : amt ≤ 0
    · have : amt = 0 := le_antisymm h0' h0
      subst this
      simp
    · rw [if_neg h0']
      simp only [List.sum_cons] at hle
      by_cases hd : d ≤ amt
      · rw [if_pos hd]
        rw [ih (amt - d) (by linarith) (by linarith)]
        simp only [List.sum_cons]
        ring
      · rw [if_neg hd]
        simp only [List.sum_cons]
        ring

/-- Trimming the chain tail removes exactly the requested amount from the
chain total. -/
theorem trimChain_sum (chain : List ℚ) (amt : ℚ) (h0 : 0 ≤ amt)
    (hle : amt ≤ chainSum chain) : chainSum (trimChain chain amt) = chainSum chain - amt := by
  unfold trimChain chainSum
  rw [List.sum_reverse, trimRev_sum chain.reverse amt h0 (by simpa [List.sum_reverse] using hle)]
  rw [List.sum_reverse]

/-- C1 counterexample: a bare segment-level `remove` (one of the
operations the claim quantifies over) takes length out of the segment
list without touching the point chain, so from an exactly conserving
state the two totals immediately differ by far more than the comparison
epsilon. -/
theorem claim_C1_counterexample :
    listSum [sampleFlat100] = chainSum [0, 100] ∧
    ¬ |listSum (removeAt [sampleFlat100] 0 50) - chainSum [0, 100]| <
        FLOATING_POINT_COMP_FACTOR := by
  constructor
  · norm_num [listSum, chainSum, sampleFlat100, containedLength, Bounds.width,
      Bounds.setMinMax, mkFlatSegment, ShapeSegment.setCapacity]
  · have heval : removeAt [sampleFlat100] 0 50 = [(removeSeg sampleFlat100 50).1] := by
      unfold removeAt
      simp only [List.get?]
      rw [removeSeg_snd, containedLength_removeSeg_fst]
      rw [if_pos (by norm_num [sampleFlat100, containedLength, Bounds.width,
        Bounds.setMinMax, mkFlatSegment, ShapeSegment.setCapacity,
        FLOATING_POINT_COMP_FACTOR])]
      rfl
    rw [heval]
    rw [show listSum [(removeSeg sampleFlat100 50).1] =
        (removeSeg sampleFlat100 50).1.containedLength from by
      simp [listSum]]
    rw [containedLength_removeSeg_fst]
    norm_num [sampleFlat100, containedLength, Bounds.width, Bounds.setMinMax,
      mkFlatSegment, ShapeSegment.setCapacity, chainSum, FLOATING_POINT_COMP_FACTOR]

/-- C1 (amended): length conservation holds for the strand-level uses of
the operations, not for bare segment-level `add`/`remove` (which change
the segment total by the full given length and rely on the caller to
update the point chain to match — see the counterexample):
starting from a state whose segment total equals the chain total exactly,
(1) one `advance` (which does not touch the point chain) leaves the two
totals equal within twice the comparison epsilon — the only losses being
the sub-epsilon residue of a segment spliced out by the epsilon cleanup
and a sub-epsilon remaining capacity — provided the advancing segment is
within its capacity and the advanced length does not exceed the length
available in the advancing segment together with its input segment; and
(2) one `reduceLength` (used by destruction, the destroyer connected at
the leading segment of a chain headed by the zero-distance first point)
removes the same amount from the segment total (exactly, up to one
sub-epsilon splice residue) and exactly that amount from the chain total,
leaving the totals equal within the comparison epsilon. -/
theorem claim_C1_length_conservation (L : ℚ) (rb : List ShapeSegment)
    (self : ShapeSegment) (after : List ShapeSegment) (chain : List ℚ)
    (r : AdvanceResult) (st : ReduceState) (amount : ℚ)
    (segs' : List ShapeSegment) (chain' : List ℚ) :
    (self.kind = .flat →
      listSum rb + self.containedLength + listSum after = chainSum chain →
      (∀ cap, self.capacity = some cap → self.containedLength ≤ cap) →
      (∀ inp rest, after = inp :: rest → inp.containedLength ≤ L →
        L ≤ self.containedLength + inp.containedLength) →
      advanceZ L rb self after = some r →
      |listSum r.toList - chainSum chain| < 2 * FLOATING_POINT_COMP_FACTOR) ∧
    (st.rbefore = [] →
      (∃ ctail, st.chain = 0 :: ctail) →
      0 ≤ amount →
      listSum st.rbefore + st.destroyerSeg.containedLength + listSum st.after =
        chainSum st.chain →
      (∀ inp rest, st.after = inp :: rest → inp.containedLength ≤ amount →
        amount ≤ st.destroyerSeg.containedLength + inp.containedLength) →
      reduceLength st amount = (segs', chain') →
      |listSum segs' - chainSum chain'| < FLOATING_POINT_COMP_FACTOR) := by
  have heps := eps_pos
  constructor
  · intro hk hcons hcap hguard h
    obtain ⟨h1, h2⟩ := advanceZ_sum_drift L rb self after r hk hcap hguard h
    rw [abs_lt]
    constructor <;> linarith
  · intro hrb0 hhead h0 hcons hguard h
    unfold reduceLength at h
    by_cases hbig : amount ≥ getLength st.chain
    · rw [if_pos hbig] at h
      injection h with hsegs hchain
      subst hsegs
      subst hchain
      obtain ⟨ctail, hc⟩ := hhead
      rw [hc]
      simpa [listSum_nil, chainSum] using heps
    · rw [if_neg hbig] at h
      injection h with hsegs hchain
      subst hsegs
      subst hchain
      have hlt : amount < chainSum st.chain := by
        simpa [getLength] using not_le.mp hbig
      have hnil : st.after = [] → amount ≤ st.destroyerSeg.containedLength := by
        intro hx
        rw [hrb0, hx] at hcons
        simp only [listSum_nil] at hcons
        linarith
      obtain ⟨h1, h2⟩ := advanceAndRemoveZ_sum_drift amount st.rbefore st.destroyerSeg
        st.after hnil hguard
      rw [trimChain_sum st.chain amount h0 (le_of_lt hlt)]
      have hz : listSum st.rbefore = 0 := by rw [hrb0]; rfl
      rw [abs_lt]
      constructor <;> linarith

/-- Witness for the amended C1: `reduceLength` consuming the whole strand
clears both the segment list and the chain (conservation holds exactly). -/
theorem claim_C1_length_conservation_witness :
    reduceLength ⟨[], sampleFlat100, [], [0, 100]⟩ 150 = ([], [0]) ∧
    |listSum [] - chainSum [0]| < FLOATING_POINT_COMP_FACTOR := by
  have heval : reduceLength ⟨[], sampleFlat100, [], [0, 100]⟩ 150 = ([], [0]) := by
    unfold reduceLength
    rw [if_pos (by norm_num [getLength, chainSum])]
    rfl
  refine ⟨heval, ?_⟩
  exact (claim_C1_length_conservation 0 [] sampleFlat100 [] [0, 100]
    ⟨[], none, [], sampleFlat100⟩ ⟨[], sampleFlat100, [], [0, 100]⟩ 150 [] [0]).2
    rfl ⟨[100], rfl⟩ (by norm_num)
    (by norm_num [listSum, chainSum, sampleFlat100, containedLength, Bounds.width,
      Bounds.setMinMax, mkFlatSegment, ShapeSegment.setCapacity])
    (fun inp rest hx => by cases hx) heval

/-! ## Termination of repeated translation advances -/

theorem IsMultOf.nonneg {δ x : ℚ} (hδ : 0 < δ) (h : IsMultOf δ x) : 0 ≤ x := by
  obtain ⟨k, rfl⟩ := h
  positivity

theorem IsMultOf.zero (δ : ℚ) : IsMultOf δ 0 := ⟨0, by norm_num⟩

theorem IsMultOf.add {δ x y : ℚ} (hx : IsMultOf δ x) (hy : IsMultOf δ y) :
    IsMultOf δ (x + y) := by
  obtain ⟨k, rfl⟩ := hx
  obtain ⟨j, rfl⟩ := hy
  exact ⟨k + j, by push_cast; ring⟩

theorem IsMultOf.sub {δ x y : ℚ} (hδ : 0 < δ) (hx : IsMultOf δ x) (hy : IsMultOf δ y)
    (hle : y ≤ x) : IsMultOf δ (x - y) := by
  obtain ⟨k, rfl⟩ := hx
  obtain ⟨j, rfl⟩ := hy
  have hjk : j ≤ k := by
    by_contra hcon
    push_neg at hcon
    have : (k : ℚ) < (j : ℚ) := by exact_mod_cast hcon
    nlinarith
  exact ⟨k - j, by push_cast [hjk]; ring⟩

theorem IsMultOf.zero_or_ge {δ x : ℚ} (hδ : 0 < δ) (h : IsMultOf δ x) :
    x = 0 ∨ δ ≤ x := by
  obtain ⟨k, rfl⟩ := h
  cases k with
  | zero => left; norm_num
  | succ n =>
    right
    have : (1 : ℚ) ≤ (n + 1 : ℕ) := by exact_mod_cast Nat.succ_le_succ (Nat.zero_le n)
    nlinarith

theorem capacity_removeSeg_fst (s : ShapeSegment) (len : ℚ) :
    (removeSeg s len).1.capacity = s.capacity := by
  unfold removeSeg
  rcases hk : s.kind with _ | _ <;> simp [hk, flatShrink]

theorem capacity_addSeg_fst (s : ShapeSegment) (len : ℚ) :
    (addSeg s len).1.capacity = s.capacity := by
  rcases hk : s.kind with _ | _
  · rcases hc : s.capacity with _ | cap
    · simp [addSeg_nocap s len hk hc, flatGrow, hc]
    · by_cases hover : cap < s.containedLength + len
      · simp [addSeg_of_gt s len cap hk hc hover, flatGrow, hc]
      · simp [addSeg_of_le s len cap hk hc (by linarith), flatGrow, hc]
  · simp [addSeg_square s len hk]

theorem capacity_maxOutLength (s : ShapeSegment) : s.maxOutLength.capacity = s.capacity := by
  unfold ShapeSegment.maxOutLength
  rcases hc : s.capacity with _ | cap <;> simp [hc]

theorem kind_removeSeg_fst' (s : ShapeSegment) (len : ℚ) :
    (removeSeg s len).1.kind = s.kind := kind_removeSeg_fst s len

theorem addToOutput_ne_nil (rb rb' : List ShapeSegment) (amt : ℚ)
    (h : addToOutput rb amt = some rb') : rb' ≠ [] := by
  rcases rb with _ | ⟨out, rest⟩
  · cases h
  · cases ha : addSeg out amt with
    | mk out' ins =>
      rcases ins with _ | sq
      · rw [show addToOutput (out :: rest) amt = some (out' :: rest) from by
            simp [addToOutput, ha]] at h
        cases h
        simp
      · rw [show addToOutput (out :: rest) amt = some (sq :: out' :: rest) from by
            simp [addToOutput, ha]] at h
        cases h
        simp

theorem listSum_nonneg_of_mult {δ : ℚ} (hδ : 0 < δ) (l : List ShapeSegment)
    (h : ∀ s ∈ l, IsMultOf δ s.containedLength) : 0 ≤ listSum l := by
  induction l with
  | nil => simp [listSum_nil]
  | cons x xs ih =>
    rw [listSum_cons]
    have hx := (h x (List.mem_cons_self x xs)).nonneg hδ
    have hxs := ih (fun s hs => h s (List.mem_cons_of_mem x hs))
    linarith

/-- The invariant maintained across `advanceTranslation` calls: the
ribosome's flat segment has an output segment before it and a finite
capacity, it is within capacity, and every contained length from it
onward (and its capacity and the advance length) is a natural multiple of
a common unit `δ` above the comparison factor — which rules out the
sub-epsilon residues at which the epsilon cleanup would splice a segment
that still holds length. -/
def TransInv (δ : ℚ) (rb : List ShapeSegment) (self : ShapeSegment)
    (after : List ShapeSegment) : Prop :=
  rb ≠ [] ∧ self.kind = .flat ∧
  (∃ cap, self.capacity = some cap ∧ IsMultOf δ cap ∧ self.containedLength ≤ cap) ∧
  IsMultOf δ self.containedLength ∧
  (∀ s ∈ after, IsMultOf δ s.containedLength)

/-- One translation advance under the invariant: the call does not crash,
and either reports completion (the segment's contained length has reached
zero) or keeps the segment in the list, preserves the invariant and
decreases the potential `2 * (length ahead) + (length in the segment)` by
at least `L`. -/
theorem advance_translation_step (δ L : ℚ) (rb : List ShapeSegment)
    (self : ShapeSegment) (after : List ShapeSegment)
    (hδ : FLOATING_POINT_COMP_FACTOR < δ) (hL : 0 < L) (hLm : IsMultOf δ L)
    (hinv : TransInv δ rb self after) :
    ∃ r, advanceZ L rb self after = some r ∧
      (r.selfObj.containedLength ≤ 0 ∨
        (r.selfInList = some r.selfObj ∧
          TransInv δ r.rbefore r.selfObj r.after ∧
          2 * listSum r.after + r.selfObj.containedLength ≤
            2 * listSum after + self.containedLength - L)) := by
  obtain ⟨hrb, hk, ⟨cap, hc, hcm, hle⟩, ham, hafterm⟩ := hinv
  have hδ0 : 0 < δ := lt_trans eps_pos hδ
  have heps := eps_pos
  rcases after with _ | ⟨input, rest⟩
  · -- no input segment
    rcases rb with _ | ⟨out, rest'⟩
    · exact absurd rfl hrb
    · obtain ⟨rb', ho, _⟩ := addToOutput_cons out rest' (min L self.containedLength)
      refine ⟨⟨rb',
        if (removeSeg self (min L self.containedLength)).2
          then some (removeSeg self (min L self.containedLength)).1 else none,
        [], (removeSeg self (min L self.containedLength)).1⟩,
        by rw [advanceZ_no_input, ho]; rfl, ?_⟩
      by_cases hcase : self.containedLength ≤ L
      · left
        rw [containedLength_removeSeg_fst, min_eq_right hcase]
        linarith
      · right
        have hLa : L < self.containedLength := lt_of_not_le hcase
        have hmin : min L self.containedLength = L := min_eq_left (le_of_lt hLa)
        have hcm' : IsMultOf δ (self.containedLength - L) :=
          IsMultOf.sub hδ0 ham hLm (le_of_lt hLa)
        have hge : δ ≤ self.containedLength - L := by
          rcases hcm'.zero_or_ge hδ0 with h0 | h0
          · linarith
          · exact h0
        have hcl : (removeSeg self (min L self.containedLength)).1.containedLength =
            self.containedLength - L := by
          rw [containedLength_removeSeg_fst, hmin]
        have hstays : (removeSeg self (min L self.containedLength)).2 = true := by
          rw [removeSeg_snd, hcl]
          simp only [decide_eq_true_eq]
          intro hcon
          linarith
        refine ⟨by rw [if_pos hstays], ?_, ?_⟩
        · refine ⟨addToOutput_ne_nil _ _ _ ho, ?_, ⟨cap, ?_, hcm, ?_⟩, ?_, ?_⟩
          · rw [kind_removeSeg_fst]; exact hk
          · rw [capacity_removeSeg_fst]; exact hc
          · rw [hcl]; linarith
          · rw [hcl]; exact hcm'
          · intro s hs; cases hs
        · simp only [listSum_nil, hcl]
          linarith
  · -- an input segment is present
    have hbm := hafterm input (List.mem_cons_self input rest)
    have hrestm : ∀ s ∈ rest, IsMultOf δ s.containedLength :=
      fun s hs => hafterm s (List.mem_cons_of_mem input hs)
    have hb0 : 0 ≤ input.containedLength := hbm.nonneg hδ0
    by_cases hin : input.containedLength > L
    · -- case 2: the input supplies the full length
      have hblm : IsMultOf δ (input.containedLength - L) :=
        IsMultOf.sub hδ0 hbm hLm (le_of_lt hin)
      have hblδ : δ ≤ input.containedLength - L := by
        rcases hblm.zero_or_ge hδ0 with h0 | h0
        · linarith
        · exact h0
      have hrfi : removeFromInput (input :: rest) L = (removeSeg input L).1 :: rest := by
        rw [removeFromInput_cons_ite, if_neg (by intro hcon; linarith)]
      have hrfisum : listSum (removeFromInput (input :: rest) L) =
          input.containedLength - L + listSum rest := by
        rw [hrfi, listSum_cons, containedLength_removeSeg_fst]
      have hrfim : ∀ s ∈ removeFromInput (input :: rest) L, IsMultOf δ s.containedLength := by
        rw [hrfi]
        intro s hs
        rcases List.mem_cons.mp hs with h' | h'
        · rw [h', containedLength_removeSeg_fst]; exact hblm
        · exact hrestm s h'
      by_cases hfits : self.containedLength + L ≤ cap
      · refine ⟨⟨rb, some (addSeg self L).1, removeFromInput (input :: rest) L,
          (addSeg self L).1⟩, advanceZ_pull_fits L rb self input rest cap hin hc hfits,
          Or.inr ⟨rfl, ⟨hrb, ?_, ⟨cap, ?_, hcm, ?_⟩, ?_, hrfim⟩, ?_⟩⟩
        · rw [kind_addSeg_fst]; exact hk
        · rw [capacity_addSeg_fst]; exact hc
        · rw [(addSeg_exact_fits self L cap hc hfits).2]; exact hfits
        · rw [(addSeg_exact_fits self L cap hc hfits).2]; exact ham.add hLm
        · simp only [hrfisum, listSum_cons, (addSeg_exact_fits self L cap hc hfits).2]
          linarith
      · have hrem : self.getRemainingCapacity = cap - self.containedLength := by
          simp [ShapeSegment.getRemainingCapacity, hc]
        have hremm : IsMultOf δ (cap - self.containedLength) :=
          IsMultOf.sub hδ0 hcm ham hle
        rcases hremm.zero_or_ge hδ0 with hr0 | hrδ
        · -- remaining capacity is exactly zero: everything to the output side
          have hroom : ¬ self.getRemainingCapacity > FLOATING_POINT_COMP_FACTOR := by
            rw [hrem, hr0]
            linarith
          rcases rb with _ | ⟨out, rest'⟩
          · exact absurd rfl hrb
          · obtain ⟨rb', ho, _⟩ := addToOutput_cons out rest' (L - self.getRemainingCapacity)
            refine ⟨⟨rb', some self, removeFromInput (input :: rest) L, self⟩,
              by rw [advanceZ_pull_full L (out :: rest') self input rest cap hin hc
                (by linarith) hroom, ho]; rfl,
              Or.inr ⟨rfl, ⟨addToOutput_ne_nil _ _ _ ho, hk, ⟨cap, hc, hcm, hle⟩,
                ham, hrfim⟩, ?_⟩⟩
            simp only [hrfisum, listSum_cons]
            linarith
        · -- room above the comparison factor: fill up, new leader in front
          have hroom : self.getRemainingCapacity > FLOATING_POINT_COMP_FACTOR := by
            rw [hrem]
            linarith
          obtain ⟨rb', ho, _⟩ := addToOutput_cons
            ((mkFlatSegment self.maxOutLength.upperLeftCorner).setCapacity LEADER_LENGTH)
            rb (L - self.getRemainingCapacity)
          refine ⟨⟨rb', some self.maxOutLength, removeFromInput (input :: rest) L,
            self.maxOutLength⟩,
            by rw [advanceZ_pull_fillup L rb self input rest cap hin hc
              (by linarith) hroom, ho]; rfl,
            Or.inr ⟨rfl, ⟨addToOutput_ne_nil _ _ _ ho, ?_, ⟨cap, ?_, hcm, ?_⟩, ?_, hrfim⟩, ?_⟩⟩
          · rw [ShapeSegment.kind_maxOutLength]; exact hk
          · rw [capacity_maxOutLength]; exact hc
          · rw [containedLength_maxOutLength self cap hk hc]
          · rw [containedLength_maxOutLength self cap hk hc]; exact hcm
          · rw [containedLength_maxOutLength self cap hk hc]
            simp only [hrfisum, listSum_cons]
            have : cap - self.containedLength < L := by linarith
            linarith
    · -- case 3: drain the input segment
      have hb : input.containedLength ≤ L := le_of_not_lt hin
      rcases rb with _ | ⟨out, rest'⟩
      · exact absurd rfl hrb
      · obtain ⟨rb', ho, _⟩ := addToOutput_cons out rest' L
        have hains : removeFromInput (input :: rest) input.containedLength = rest :=
          by rw [removeFromInput_cons_ite, if_pos (by simpa using heps)]
        refine ⟨⟨rb',
          if (removeSeg self (L - input.containedLength)).2
            then some (removeSeg self (L - input.containedLength)).1 else none,
          removeFromInput (input :: rest) input.containedLength,
          (removeSeg self (L - input.containedLength)).1⟩,
          by rw [advanceZ_drain L (out :: rest') self input rest hin, ho]; rfl, ?_⟩
        have hcl : (removeSeg self (L - input.containedLength)).1.containedLength =
            self.containedLength - (L - input.containedLength) :=
          containedLength_removeSeg_fst self _
        by_cases hdone : self.containedLength - (L - input.containedLength) ≤ 0
        · left
          rw [hcl]
          exact hdone
        · right
          have hpos : 0 < self.containedLength - (L - input.containedLength) :=
            lt_of_not_le hdone
          have hLab : L ≤ self.containedLength + input.containedLength := by linarith
          have hclm : IsMultOf δ (self.containedLength + input.containedLength - L) :=
            IsMultOf.sub hδ0 (ham.add hbm) hLm hLab
          have hcl' : self.containedLength - (L - input.containedLength) =
              self.containedLength + input.containedLength - L := by ring
          have hgeδ : δ ≤ self.containedLength - (L - input.containedLength) := by
            rw [hcl']
            rcases hclm.zero_or_ge hδ0 with h0 | h0
            · rw [← hcl'] at h0; linarith
            · exact h0
          have hstays : (removeSeg self (L - input.containedLength)).2 = true := by
            rw [removeSeg_snd, hcl]
            simp only [decide_eq_true_eq]
            intro hcon
            linarith
          refine ⟨by rw [if_pos hstays], ⟨addToOutput_ne_nil _ _ _ ho, ?_,
            ⟨cap, ?_, hcm, ?_⟩, ?_, ?_⟩, ?_⟩
          · rw [kind_removeSeg_fst]; exact hk
          · rw [capacity_removeSeg_fst]; exact hc
          · rw [hcl]; linarith
          · rw [hcl, hcl']; exact hclm
          · rw [hains]; exact hrestm
          · rw [hains, hcl]
            simp only [listSum_cons]
            linarith

theorem iterAdvanceTranslation_succ (L : ℚ) (n : ℕ) (rb : List ShapeSegment)
    (self : ShapeSegment) (after : List ShapeSegment) :
    iterAdvanceTranslation L (n + 1) rb self after =
      match advanceZ L rb self after with
      | none => none
      | some r =>
        if r.selfObj.containedLength ≤ 0 then some true
        else
          match r.selfInList with
          | some self' => iterAdvanceTranslation L n r.rbefore self' r.after
          | none => none := rfl

/-- Under the invariant, `n+1` calls suffice once the potential is below
`n * L`. -/
theorem iter_completes (δ L : ℚ) (hδ : FLOATING_POINT_COMP_FACTOR < δ)
    (hL : 0 < L) (hLm : IsMultOf δ L) :
    ∀ (n : ℕ) (rb : List ShapeSegment) (self : ShapeSegment)
      (after : List ShapeSegment), TransInv δ rb self after →
      2 * listSum after + self.containedLength ≤ n * L →
      iterAdvanceTranslation L (n + 1) rb self after = some true := by
  have hδ0 : 0 < δ := lt_trans eps_pos hδ
  intro n
  induction n with
  | zero =>
    intro rb self after hinv hpot
    obtain ⟨r, hadv, hres⟩ := advance_translation_step δ L rb self after hδ hL hLm hinv
    rw [iterAdvanceTranslation_succ, hadv]
    rcases hres with hdone | ⟨hsil, hinv', hpot'⟩
    · simp [hdone]
    · exfalso
      obtain ⟨_, _, _, hm', hafterm'⟩ := hinv'
      have h1 : 0 ≤ listSum r.after := listSum_nonneg_of_mult hδ0 r.after hafterm'
      have h2 : 0 ≤ r.selfObj.containedLength := hm'.nonneg hδ0
      simp only [Nat.cast_zero, zero_mul] at hpot
      linarith
  | succ n ih =>
    intro rb self after hinv hpot
    obtain ⟨r, hadv, hres⟩ := advance_translation_step δ L rb self after hδ hL hLm hinv
    rw [iterAdvanceTranslation_succ, hadv]
    rcases hres with hdone | ⟨hsil, hinv', hpot'⟩
    · simp [hdone]
    · by_cases hdone' : r.selfObj.containedLength ≤ 0
      · simp [hdone']
      · simp only [hsil, if_neg hdone']
        apply ih r.rbefore r.selfObj r.after hinv'
        have hcast : ((n + 1 : ℕ) : ℚ) * L = n * L + L := by push_cast; ring
        rw [hcast] at hpot
        linarith

/-- C5 counterexample: on a strand whose ribosome segment is the only
segment (finite total length, ribosome attached), the very first
`advanceTranslation` call crashes dereferencing the null output segment,
so the repeated calls never return true. -/
theorem claim_C5_counterexample :
    iterAdvanceTranslation 100 1 [] sampleFlat100 [] = none ∧ (0 : ℚ) < 100 := by
  have hadv : advanceZ 100 [] sampleFlat100 [] = none := by
    rw [advanceZ_no_input]
    rfl
  refine ⟨?_, by norm_num⟩
  rw [iterAdvanceTranslation_succ, hadv]

/-- C5 (amended): monotonic translation progress holds away from the
crash and sub-epsilon-splice corners: for every strand whose ribosome
segment has an output segment before it and a finite capacity, and whose
contained lengths, capacity and the fixed advance length `L > 0` are
natural multiples of a common unit above the comparison factor, repeated
`advanceTranslation(ribosome, L)` returns true within `n + 1` calls for
any `n` with `2 * (total strand length from the ribosome's segment
onward) ≤ n * L` — a number of calls proportional to total length / L. -/
theorem claim_C5_translation_termination (δ L : ℚ) (rb : List ShapeSegment)
    (self : ShapeSegment) (after : List ShapeSegment) (n : ℕ)
    (hδ : FLOATING_POINT_COMP_FACTOR < δ) (hL : 0 < L) (hLm : IsMultOf δ L)
    (hinv : TransInv δ rb self after)
    (hn : 2 * (self.containedLength + listSum after) ≤ n * L) :
    iterAdvanceTranslation L (n + 1) rb self after = some true := by
  apply iter_completes δ L hδ hL hLm n rb self after hinv
  have ha : 0 ≤ self.containedLength :=
    hinv.2.2.2.1.nonneg (lt_trans eps_pos hδ)
  linarith

/-- Witness for the amended C5 at a concrete strand: one flat segment
holding 100 (capacity 200) behind a square output segment, advanced in
steps of 100, completes within 3 calls. -/
theorem claim_C5_translation_termination_witness :
    iterAdvanceTranslation 100 3 [sampleSquare 0] sampleFlat100 [] = some true := by
  have hcl : sampleFlat100.containedLength = 100 := by
    norm_num [sampleFlat100, containedLength, Bounds.width, Bounds.setMinMax,
      mkFlatSegment, ShapeSegment.setCapacity]
  have hinv : TransInv 1 [sampleSquare 0] sampleFlat100 [] := by
    refine ⟨by simp, rfl, ⟨200, rfl, ⟨200, by norm_num⟩, by rw [hcl]; norm_num⟩,
      ⟨100, by rw [hcl]; norm_num⟩, ?_⟩
    intro s hs
    simp at hs
  exact claim_C5_translation_termination 1 100 [sampleSquare 0] sampleFlat100 [] 2
    (by norm_num [FLOATING_POINT_COMP_FACTOR]) (by norm_num) ⟨100, by norm_num⟩ hinv
    (by rw [hcl]; norm_num [listSum_nil])

end GeneExpression
